import Mathlib

/-!
Verification development for the gjson_template execution engine
(`exec.go`): a shallow embedding of the scoped tree walker, the
pipeline/command evaluator, the control-flow state machine
(if/with/range/template-call/break/continue), the truthiness and
comparison rules, and the error/signal propagation discipline.

The external JSON value store (tidwall/gjson) is modelled at the
interface `exec.go` consumes: a value carries its type tag, the raw
document text, the decoded string/number payloads, and the results of
the `Array()` / `ForEach` / `Get` operations.  Numbers are modelled
with `Int` (the Go code stores `float64`; the behaviour under test
only involves integral values).  Go's panic/recover/defer discipline
is made explicit: every walk step returns its final state together
with an `Exit` (normal, break signal, continue signal, or error), and
the deferred scope pops run on every exit path, as Go's `defer` does
during unwinding.
-/

namespace GJT

/-! Structural string helpers.  The corresponding core functions use
well-founded recursion, which the kernel cannot evaluate; these
re-implementations recurse structurally over the character list so that
concrete executions reduce. -/

/-- `strings.HasPrefix`. -/
def strHasPrefix (s pre : String) : Bool := pre.data.isPrefixOf s.data

/-- `strings.HasSuffix`. -/
def strHasSuffix (s suf : String) : Bool := suf.data.isSuffixOf s.data

/-- Byte length of a string (Go's `len` on a string). -/
def strUtf8Len (s : String) : Nat := s.data.foldl (fun a c => a + c.utf8Size) 0

def strDrop (s : String) (n : Nat) : String := String.mk (s.data.drop n)

def strDropRight (s : String) (n : Nat) : String :=
  String.mk (s.data.take (s.data.length - n))

def splitCharAux (sep : Char) : List Char → List Char → List String
  | [], acc => [String.mk acc.reverse]
  | c :: cs, acc =>
    if c == sep then String.mk acc.reverse :: splitCharAux sep cs []
    else splitCharAux sep cs (c :: acc)

/-- Split on a separator character (`strings.Split` for one-character
separators). -/
def splitChar (sep : Char) (s : String) : List String := splitCharAux sep s.data []

/-- `strings.Join` with separator `"."`. -/
def joinDot : List String → String
  | [] => ""
  | [s] => s
  | s :: rest => s ++ "." ++ joinDot rest

/-- `strings.Join` with separator `" "` (the print builtins). -/
def joinSpace : List String → String
  | [] => ""
  | [s] => s
  | s :: rest => s ++ " " ++ joinSpace rest

/-- Type tag of a JSON value, mirroring `gjson.Type`. -/
inductive GType where
  | Null | False | True | Number | String | JSON
deriving DecidableEq, Repr

/-- Model of `gjson.Result`: type tag, raw document text, decoded string
payload (`Str`), numeric payload (`Num`, here `Int`), and the results of
the external store's `Array()` and `ForEach` operations. -/
inductive GRes where
  | mk (type : GType) (raw : String) (str : String) (num : Int)
       (arr : List GRes) (obj : List (String × GRes)) : GRes
deriving Repr

def GRes.type : GRes → GType
  | .mk t _ _ _ _ _ => t

def GRes.raw : GRes → String
  | .mk _ r _ _ _ _ => r

def GRes.str : GRes → String
  | .mk _ _ s _ _ _ => s

def GRes.num : GRes → Int
  | .mk _ _ _ n _ _ => n

def GRes.arr : GRes → List GRes
  | .mk _ _ _ _ a _ => a

def GRes.obj : GRes → List (String × GRes)
  | .mk _ _ _ _ _ o => o

/-- `Result.Exists()`: true unless the value is the zero `Result`
(type Null with empty raw text). -/
def GRes.existsB (r : GRes) : Bool :=
  r.type != GType.Null || r.raw != ""

/-- `Result.IsArray()`: JSON type whose raw text starts with `[`. -/
def GRes.isArray (r : GRes) : Bool :=
  r.type == GType.JSON && strHasPrefix r.raw "["

/-- `Result.IsObject()`: JSON type whose raw text starts with `\x7b`. -/
def GRes.isObject (r : GRes) : Bool :=
  r.type == GType.JSON && strHasPrefix r.raw "\x7b"

/-- `Result.String()`: the string form of a value.  For `Number` the
store returns the raw numeral (every number in this model carries its
canonical numeral as raw text). -/
def GRes.string (r : GRes) : String :=
  match r.type with
  | GType.Null => ""
  | GType.False => "false"
  | GType.True => "true"
  | GType.Number => r.raw
  | GType.String => r.str
  | GType.JSON => r.raw

/-- The zero `gjson.Result{}`: a nonexistent value. -/
def GRes.empty : GRes := .mk .Null "" "" 0 [] []

/-- `gjson.Parse` of a boolean literal's text. -/
def mkBool (b : Bool) : GRes :=
  if b then .mk .True "true" "" 0 [] [] else .mk .False "false" "" 0 [] []

/-- `gjson.Parse` of an integer numeral. -/
def mkNum (n : Int) : GRes := .mk .Number (toString n) "" n [] []

/-- Model of `fmt.Sprintf("%q", s)` for the strings exercised here
(no characters needing escapes). -/
def quoteStr (s : String) : String := "\"" ++ s ++ "\""

/-- `gjson.Parse` of a quoted string literal. -/
def mkStr (s : String) : GRes := .mk .String (quoteStr s) s 0 [] []

/-- `gjson.Parse "null"`: an existing null value. -/
def nullV : GRes := .mk .Null "null" "" 0 [] []

/-- Model of the store's path query restricted to dot-separated object
keys (the only path shape `evalFieldChain` builds from identifiers). -/
def GRes.getKeys : GRes → List String → GRes
  | r, [] => r
  | r, k :: ks =>
    if r.isObject then
      match r.obj.lookup k with
      | some v => GRes.getKeys v ks
      | none => GRes.empty
    else GRes.empty

/-- `Result.Get(path)` on a dotted key path. -/
def GRes.get (r : GRes) (path : String) : GRes :=
  GRes.getKeys r (splitChar '.' path)

/-- `isGjsonTrue` (exec.go): the truthiness classification used by
if/with/and/or/not.  Returns (truth, whether the value has a meaningful
truth value). -/
def isGjsonTrue (val : GRes) : Bool × Bool :=
  if !val.existsB then (false, true)
  else
    match val.type with
    | GType.Null => (false, true)
    | GType.False => (false, true)
    | GType.True => (true, true)
    | GType.Number => (val.num != 0, true)
    | GType.String => (val.str != "", true)
    | GType.JSON =>
      if val.isArray || val.isObject then
        (val.raw != "" && val.raw != "[]" && val.raw != "\x7b\x7d", true)
      else (false, false)

/-- Model of `strconv.ParseFloat` on the integral numerals representable
in this development's `Int`-valued number model (optional sign followed
by decimal digits); other syntax yields a parse failure. -/
def parseFloatModel (s : String) : Option Int :=
  let neg := strHasPrefix s "-"
  let digits := if neg then strDrop s 1 else s
  if digits != "" && digits.toList.all Char.isDigit then
    some ((if neg then (-1 : Int) else 1) *
      (digits.toList.foldl (fun a c => a * 10 + (Int.ofNat (c.toNat - 48))) 0))
  else none

/-- The comparison switch of `evalFunction` for eq/ne/lt/le/gt/ge:
`eq` compares numerically when both operands are numbers and attempts a
string-to-number coercion for one numeric and one string operand;
`ne` always compares raw canonical text; the ordering operators compare
numerically when both are numbers and otherwise lexicographically on the
string forms. -/
def compareOp (name : String) (a b : GRes) : Bool :=
  match name with
  | "eq" =>
    if a.type == GType.Number && b.type == GType.Number then a.num == b.num
    else if a.type == GType.Number && b.type == GType.String then
      match parseFloatModel b.string with
      | some n => a.num == n
      | none => false
    else if a.type == GType.String && b.type == GType.Number then
      match parseFloatModel a.string with
      | some n => n == b.num
      | none => false
    else a.raw == b.raw
  | "ne" => a.raw != b.raw
  | "lt" =>
    if a.type == GType.Number && b.type == GType.Number then decide (a.num < b.num)
    else decide (a.string < b.string)
  | "le" =>
    if a.type == GType.Number && b.type == GType.Number then decide (a.num ≤ b.num)
    else decide (a.string ≤ b.string)
  | "gt" =>
    if a.type == GType.Number && b.type == GType.Number then decide (b.num < a.num)
    else decide (b.string < a.string)
  | "ge" =>
    if a.type == GType.Number && b.type == GType.Number then decide (b.num ≤ a.num)
    else decide (b.string ≤ a.string)
  | _ => false

/-! ## The syntax tree (parse package interface)

The parse tree is supplied fully formed and immutable; these inductives
mirror the node variants `exec.go` consumes.  A command's argument list
here excludes its head word (Go's `cmd.Args[0]`), so Go's
`len(args) > 1` reads as `args ≠ []`. -/

mutual
inductive Term where
  | dot : Term
  | nilT : Term
  | field : List String → Term
  | varT : List String → Term
  | boolT : Bool → Term
  | numT : Int → Term
  | strT : String → Term
  | ident : String → Term
  | pipeT : Pipe → Term
  | chain : Term → List String → Term
deriving Repr

inductive Cmd where
  | mk : Term → List Term → Cmd
deriving Repr

inductive Pipe where
  | mk : List String → Bool → List Cmd → Pipe
deriving Repr
end

def Cmd.head : Cmd → Term
  | .mk h _ => h

def Cmd.args : Cmd → List Term
  | .mk _ a => a

def Pipe.decl : Pipe → List String
  | .mk d _ _ => d

def Pipe.isAssign : Pipe → Bool
  | .mk _ i _ => i

def Pipe.cmds : Pipe → List Cmd
  | .mk _ _ c => c

inductive Node where
  | text : String → Node
  | comment : Node
  | breakN : Node
  | continueN : Node
  | action : Pipe → Node
  | listN : List Node → Node
  | ifN : Pipe → Node → Option Node → Node
  | withN : Pipe → Node → Option Node → Node
  | rangeN : Pipe → Node → Option Node → Node
  | tmplN : String → Option Pipe → Node
deriving Repr

/-! ## Errors, signals, state -/

/-- The missing-key policy (`missingKeyAction`). -/
inductive MKey where
  | invalid | zeroValue | error
deriving DecidableEq, Repr

/-- The distinct `errorf` call sites of exec.go, as error kinds. -/
inductive ErrKind where
  | undefVar (name : String)
  | undefTemplate (name : String)
  | depthExceeded
  | incompleteTemplate
  | pathNotFound (path : String)
  | notAFunctionErr
  | nilCommand
  | notAMethod (path : String)
  | badIfWithValue
  | badAndOrValue
  | badNotValue
  | wrongArgCount (fn : String)
  | badArgValue (fn : String)
  | rangeOverManyVars
  | cantIterate
  | indexNotInt
  | idxOutOfRange (i : Int)
  | cantIndex
  | funcNotImpl (name : String)
  | funcCallErr (name : String) (msg : String)
  | internalNoFields
  | nilIndirection
  | cantEvalCmd
deriving DecidableEq, Repr

/-- The two fault classes: an `ExecError` (tagged with the owning
template's name, raised by `errorf`) and a `writeError` wrapping the
output sink's original error. -/
inductive Fault where
  | execErr (tname : String) (kind : ErrKind)
  | writeErr (orig : String)
deriving DecidableEq, Repr

/-- Abrupt result of an evaluation: a fault, or exhaustion of the
step-count fuel of this embedding (an artifact of the model, treated as
one more propagating abrupt exit). -/
inductive EErr where
  | f (fault : Fault)
  | fuelOut
deriving DecidableEq, Repr

/-- Result of walking a node: normal completion, a loop-control signal
(`panic(walkBreak)` / `panic(walkContinue)`), or a propagating error. -/
inductive Exit where
  | normal | brk | cont
  | err (e : EErr)
deriving DecidableEq, Repr

/-- The output sink: appends bytes, or returns its own error.  The sink
accepts `budget` write calls (none = unbounded) and afterwards fails
each call with `errMsg`, modelling an `io.Writer` that starts failing. -/
structure Writer where
  budget : Option Nat
  errMsg : String
  written : String
deriving DecidableEq, Repr

def Writer.write (w : Writer) (s : String) : Writer × Option String :=
  match w.budget with
  | none => ({ w with written := w.written ++ s }, none)
  | some 0 => (w, some w.errMsg)
  | some (n + 1) => ({ w with budget := some n, written := w.written ++ s }, none)

/-- The mutable execution state (`state` in exec.go): current template
name (for error context), the variable stack, the template recursion
depth, and the output sink.  The root JSON document and the
current-node bookkeeping only feed error message text and are not
modelled. -/
structure St where
  tname : String
  vars : List (String × GRes)
  depth : Nat
  wr : Writer

/-- `state.push`. -/
def St.push (st : St) (name : String) (v : GRes) : St :=
  { st with vars := st.vars ++ [(name, v)] }

/-- `state.pop(mark)`: truncate the stack to the mark. -/
def St.popTo (st : St) (m : Nat) : St :=
  { st with vars := st.vars.take m }

/-- `state.varValue`: scan from the most recent binding backward. -/
def varLookup : List (String × GRes) → String → Option GRes
  | [], _ => none
  | (n, v) :: rest, name =>
    match varLookup rest name with
    | some r => some r
    | none => if n == name then some v else none

/-- `state.setVar`: overwrite the last declared binding with the name;
`none` when the variable is undefined. -/
def setVarList : List (String × GRes) → String → GRes → Option (List (String × GRes))
  | [], _, _ => none
  | (n, v) :: rest, name, val =>
    match setVarList rest name val with
    | some rest2 => some ((n, v) :: rest2)
    | none => if n == name then some ((n, val) :: rest) else none

/-- `state.setTopVar(n, value)`: overwrite the top-nth binding.  The
out-of-range case is unreachable at the call sites (range pushes its
declarations before taking the mark) and is modelled as a no-op. -/
def St.setTop (st : St) (n : Nat) (v : GRes) : St :=
  let i := st.vars.length - n
  match st.vars.get? i with
  | some p => { st with vars := st.vars.set i (p.1, v) }
  | none => st

/-- The read-only execution environment: the named-template registry,
the missing-key policy, the recursion-depth ceiling (`maxExecDepth`),
and the external collaborators (registered function map, escapers, and
`fmt.Sprintf` composed with the printf argument coercion). -/
structure Env where
  tmpls : List (String × Node)
  missingKey : MKey
  maxDepth : Nat
  funcs : String → Option (List GRes → Except String GRes)
  htmlEsc : String → String
  jsEsc : String → String
  urlEsc : String → String
  fmtS : String → List GRes → String

/-- `initMaxExecDepth` on a non-wasm target. -/
def maxExecDepthDefault : Nat := 100000

/-! ## Non-recursive evaluation helpers -/

/-- `state.notAFunction`: giving arguments (or a piped-in final value)
to a non-function is an error. -/
def notAFunctionChk (st : St) (args : List Term) (final : GRes) : Option Fault :=
  if !args.isEmpty || final.existsB then
    some (.execErr st.tname .notAFunctionErr)
  else none

/-- `evalFieldChain`: join the identifiers into a dotted path, query the
receiver, consult the missing-key policy, and reject arguments. -/
def evalFieldChain (env : Env) (st : St) (receiver : GRes) (ident : List String)
    (args : List Term) (final : GRes) : Except Fault GRes :=
  let path := joinDot ident
  let result := receiver.get path
  if !result.existsB && env.missingKey == MKey.error then
    .error (.execErr st.tname (.pathNotFound path))
  else if !args.isEmpty || final.existsB then
    .error (.execErr st.tname (.notAMethod path))
  else .ok result

/-- `evalVariableNode`: resolve the variable on the stack, then an
optional trailing field chain.  The empty-identifier case cannot be
produced by the parser. -/
def evalVariableNode (env : Env) (st : St) (idents : List String)
    (args : List Term) (final : GRes) : Except Fault GRes :=
  match idents with
  | [] => .error (.execErr st.tname .cantEvalCmd)
  | name :: rest =>
    match varLookup st.vars name with
    | none => .error (.execErr st.tname (.undefVar name))
    | some value =>
      if rest.isEmpty then
        match notAFunctionChk st args final with
        | some fa => .error fa
        | none => .ok value
      else evalFieldChain env st value rest args final

/-- The text `printValue` renders: empty for a nonexistent value, the
unquoted text for a string, the raw JSON for an array or object, the
string form for any other JSON-typed value, and the raw literal text
otherwise. -/
def printString (v : GRes) : String :=
  if !v.existsB then ""
  else
    match v.type with
    | GType.String => v.str
    | GType.JSON => if v.isObject || v.isArray then v.raw else v.string
    | _ => v.raw

/-- `printValue`: render the value and write it to the sink; a sink
failure raises a write fault. -/
def printValue (st : St) (v : GRes) : St × Exit :=
  match st.wr.write (printString v) with
  | (w, none) => ({ st with wr := w }, .normal)
  | (w, some e) => ({ st with wr := w }, .err (.f (.writeErr e)))

/-- `state.setVar` as the engine uses it: mutate the binding in place,
or fault with an undefined-variable error. -/
def trySetVar (st : St) (name : String) (v : GRes) : St × Option Fault :=
  match setVarList st.vars name v with
  | some vars2 => ({ st with vars := vars2 }, none)
  | none => (st, some (.execErr st.tname (.undefVar name)))

/-- The declaration/assignment step at the end of `evalPipeline`: every
declared name is bound to the same final value (declare pushes, assign
mutates an existing binding and faults when it is undefined). -/
def applyDecls (st : St) (decl : List String) (isAssign : Bool) (v : GRes) :
    St × Option Fault :=
  match decl with
  | [] => (st, none)
  | name :: rest =>
    if isAssign then
      match trySetVar st name v with
      | (st1, none) => applyDecls st1 rest isAssign v
      | (st1, some fa) => (st1, some fa)
    else applyDecls (st.push name v) rest isAssign v

/-- Array iteration pairs: (index as a parsed numeral, element). -/
def arrayPairs (vs : List GRes) : List (GRes × GRes) :=
  vs.enum.map (fun p => (mkNum (Int.ofNat p.1), p.2))

/-- Object iteration pairs in original document order: (key, value). -/
def objectPairs (entries : List (String × GRes)) : List (GRes × GRes) :=
  entries.map (fun p => (mkStr p.1, p.2))

/-- Numeric range iteration pairs: both index and element are `i`. -/
def countPairs (n : Nat) : List (GRes × GRes) :=
  (List.range n).map (fun i => (mkNum (Int.ofNat i), mkNum (Int.ofNat i)))

/-- String iteration pairs: byte offset of each code point paired with
the single-character string. -/
def stringPairsAux : Nat → List Char → List (GRes × GRes)
  | _, [] => []
  | off, c :: cs =>
    (mkNum (Int.ofNat off), mkStr (String.mk [c])) :: stringPairsAux (off + c.utf8Size) cs

def stringPairs (s : String) : List (GRes × GRes) := stringPairsAux 0 s.toList

/-- The backquote character, as `evalCommand`'s gjson-path syntax check
looks for it on a string head. -/
def btick : String := "\x60"

/-- The first loop-variable binding step of `oneIteration` (source lines
400-414): with declarations present, the assign form reassigns the first
declared name (to the index with two variables, to the element with
one), and the declare form rebinds the top stack slot to the element. -/
def rangeBind1 (st : St) (pipe : Pipe) (index elem : GRes) : St × Option Fault :=
  match pipe.decl with
  | [] => (st, none)
  | d0 :: _ =>
    if pipe.isAssign then
      trySetVar st d0 (if pipe.decl.length > 1 then index else elem)
    else (st.setTop 1 elem, none)

/-- The second loop-variable binding step of `oneIteration` (source
lines 415-423): with two declared variables, the assign form reassigns
the second name to the element, and the declare form rebinds the
next-to-top slot to the index. -/
def rangeBind2 (st : St) (pipe : Pipe) (index elem : GRes) : St × Option Fault :=
  if pipe.decl.length > 1 then
    match pipe.decl with
    | _ :: d1 :: _ =>
      if pipe.isAssign then trySetVar st d1 elem
      else (st.setTop 2 index, none)
    | _ => (st, none)
  else (st, none)

/-! ## The walker and evaluator

All functions of the mutual family take a step-count fuel and consume
one unit per call, making the recursion structural; exhausting the fuel
surfaces as the artificial abrupt exit `EErr.fuelOut`.  Go's deferred
scope pops and the two loop-control recovery points are modelled
explicitly on every exit path. -/

mutual

/-- `state.walk`: interpret one node. -/
def walk : Nat → Env → St → GRes → Node → St × Exit
  | 0, _, st, _, _ => (st, .err .fuelOut)
  | f + 1, env, st, dot, node =>
    match node with
    | .text s =>
      match st.wr.write s with
      | (w, none) => ({ st with wr := w }, .normal)
      | (w, some e) => ({ st with wr := w }, .err (.f (.writeErr e)))
    | .comment => (st, .normal)
    | .breakN => (st, .brk)
    | .continueN => (st, .cont)
    | .action pipe =>
      -- variables declared by an action persist; if the pipeline
      -- declares identifiers the result is not printed
      match evalPipeline f env st dot pipe with
      | (st1, .error e) => (st1, .err e)
      | (st1, .ok v) =>
        if pipe.decl.isEmpty then printValue st1 v else (st1, .normal)
    | .listN ns => walkList f env st dot ns
    | .ifN pipe l el => walkIfOrWith f false env st dot pipe l el
    | .withN pipe l el => walkIfOrWith f true env st dot pipe l el
    | .rangeN pipe l el => walkRange f env st dot pipe l el
    | .tmplN name p => walkTemplate f env st dot name p

def walkList : Nat → Env → St → GRes → List Node → St × Exit
  | 0, _, st, _, _ => (st, .err .fuelOut)
  | _ + 1, _, st, _, [] => (st, .normal)
  | f + 1, env, st, dot, n :: ns =>
    match walk f env st dot n with
    | (st1, .normal) => walkList f env st1 dot ns
    | (st1, ex) => (st1, ex)

/-- The body of `walkIfOrWith`, before its deferred pop: evaluate the
pipeline, classify truthiness, and walk the body (with dot replaced for
`with`), the else-list, or nothing. -/
def walkIfOrWithInner : Nat → Bool → Env → St → GRes → Pipe → Node → Option Node → St × Exit
  | 0, _, _, st, _, _, _, _ => (st, .err .fuelOut)
  | f + 1, isWith, env, st, dot, pipe, l, el =>
    match evalPipeline f env st dot pipe with
    | (st1, .error e) => (st1, .err e)
    | (st1, .ok v) =>
      match isGjsonTrue v with
      | (_, false) => (st1, .err (.f (.execErr st1.tname .badIfWithValue)))
      | (truth, true) =>
        if truth then
          if isWith then walk f env st1 v l else walk f env st1 dot l
        else
          match el with
          | some e => walk f env st1 dot e
          | none => (st1, .normal)

/-- `walkIfOrWith`: the scope mark is captured on entry (the deferred
`pop(mark)` argument is evaluated at the defer statement) and the pop
runs on every exit path. -/
def walkIfOrWith : Nat → Bool → Env → St → GRes → Pipe → Node → Option Node → St × Exit
  | 0, _, _, st, _, _, _, _ => (st, .err .fuelOut)
  | f + 1, isWith, env, st, dot, pipe, l, el =>
    let res := walkIfOrWithInner f isWith env st dot pipe l el
    (res.1.popTo st.vars.length, res.2)

/-- The body of `walkRange`, before its two deferred recovery points:
evaluate the pipeline (pushing any declared loop variables), take the
inner mark, and dispatch on the iterable's type.  The `errorf` in the
default case panics, so the else-walk after it in the source is dead
code. -/
def walkRangeInner : Nat → Env → St → GRes → Pipe → Node → Option Node → St × Exit
  | 0, _, st, _, _, _, _ => (st, .err .fuelOut)
  | f + 1, env, st, dot, pipe, l, el =>
    match evalPipeline f env st dot pipe with
    | (st1, .error e) => (st1, .err e)
    | (st1, .ok val) =>
      let mark := st1.vars.length
      if val.isArray then
        if val.arr.isEmpty then
          match el with
          | some e => walk f env st1 dot e
          | none => (st1, .normal)
        else rangeIter f env st1 pipe l mark (arrayPairs val.arr)
      else if val.isObject then
        if !val.existsB || val.raw == "\x7b\x7d" then
          match el with
          | some e => walk f env st1 dot e
          | none => (st1, .normal)
        else rangeIter f env st1 pipe l mark (objectPairs val.obj)
      else if val.type == GType.Number then
        if pipe.decl.length > 1 then
          (st1, .err (.f (.execErr st1.tname .rangeOverManyVars)))
        else if val.num ≤ 0 then
          match el with
          | some e => walk f env st1 dot e
          | none => (st1, .normal)
        else rangeIter f env st1 pipe l mark (countPairs val.num.toNat)
      else if val.type == GType.String then
        if val.string == "" then
          match el with
          | some e => walk f env st1 dot e
          | none => (st1, .normal)
        else rangeIter f env st1 pipe l mark (stringPairs val.string)
      else
        (st1, .err (.f (.execErr st1.tname .cantIterate)))

/-- `walkRange`: runs the body above, then — modelling the two deferred
recovery points registered on entry — pops the stack to the entry mark
and absorbs a Break signal; every other exit propagates. -/
def walkRange : Nat → Env → St → GRes → Pipe → Node → Option Node → St × Exit
  | 0, _, st, _, _, _, _ => (st, .err .fuelOut)
  | f + 1, env, st, dot, pipe, l, el =>
    let res := walkRangeInner f env st dot pipe l el
    let st2 := res.1.popTo st.vars.length
    match res.2 with
    | .brk => (st2, .normal)
    | ex => (st2, ex)

def rangeIter : Nat → Env → St → Pipe → Node → Nat → List (GRes × GRes) → St × Exit
  | 0, _, st, _, _, _, _ => (st, .err .fuelOut)
  | _ + 1, _, st, _, _, _, [] => (st, .normal)
  | f + 1, env, st, pipe, body, mark, p :: rest =>
    match oneIteration f env st pipe body mark p.1 p.2 with
    | (st1, .normal) => rangeIter f env st1 pipe body mark rest
    | (st1, ex) => (st1, ex)

/-- `oneIteration`: bind the loop variables (a fault there is raised
before the iteration's deferred pop/recover are registered), walk the
body with dot = element, then — the iteration's defers — absorb a
Continue signal and pop to the loop mark. -/
def oneIteration : Nat → Env → St → Pipe → Node → Nat → GRes → GRes → St × Exit
  | 0, _, st, _, _, _, _, _ => (st, .err .fuelOut)
  | f + 1, env, st, pipe, body, mark, index, elem =>
    match rangeBind1 st pipe index elem with
    | (stA, some fa) => (stA, .err (.f fa))
    | (stA, none) =>
      match rangeBind2 stA pipe index elem with
      | (stB, some fa) => (stB, .err (.f fa))
      | (stB, none) =>
        let r := walk f env stB elem body
        let ex : Exit := match r.2 with
          | .cont => .normal
          | e => e
        (r.1.popTo mark, ex)

/-- `walkTemplate`: look up the named template, enforce the depth
ceiling, evaluate the pipeline (its declared variables persist in the
caller's stack), then walk the target's root with a child state at
depth+1 whose stack holds the single binding `$`.  The caller's stack
and depth are untouched by the child; the output sink is shared. -/
def walkTemplate : Nat → Env → St → GRes → String → Option Pipe → St × Exit
  | 0, _, st, _, _, _ => (st, .err .fuelOut)
  | f + 1, env, st, dot, name, p =>
    match env.tmpls.lookup name with
    | none => (st, .err (.f (.execErr st.tname (.undefTemplate name))))
    | some root =>
      if st.depth == env.maxDepth then
        (st, .err (.f (.execErr st.tname .depthExceeded)))
      else
        match evalPipelineOpt f env st dot p with
        | (st1, .error e) => (st1, .err e)
        | (st1, .ok newDot) =>
          let child : St :=
            { tname := name, vars := [("$", newDot)], depth := st1.depth + 1, wr := st1.wr }
          let r := walk f env child newDot root
          ({ st1 with wr := r.1.wr }, r.2)

/-- `evalPipeline` on a possibly-nil pipe (the nil check at its top). -/
def evalPipelineOpt : Nat → Env → St → GRes → Option Pipe → St × Except EErr GRes
  | 0, _, st, _, _ => (st, .error .fuelOut)
  | f + 1, env, st, dot, p =>
    match p with
    | none => (st, .ok GRes.empty)
    | some pipe => evalPipeline f env st dot pipe

/-- `evalPipeline`: chain the commands left to right (each receives the
previous result as implicit final argument), then apply the
declaration/assignment step. -/
def evalPipeline : Nat → Env → St → GRes → Pipe → St × Except EErr GRes
  | 0, _, st, _, _ => (st, .error .fuelOut)
  | f + 1, env, st, dot, pipe =>
    match evalCmds f env st dot pipe.cmds GRes.empty with
    | (st1, .error e) => (st1, .error e)
    | (st1, .ok v) =>
      match applyDecls st1 pipe.decl pipe.isAssign v with
      | (st2, none) => (st2, .ok v)
      | (st2, some fa) => (st2, .error (.f fa))

def evalCmds : Nat → Env → St → GRes → List Cmd → GRes → St × Except EErr GRes
  | 0, _, st, _, _, _ => (st, .error .fuelOut)
  | _ + 1, _, st, _, [], acc => (st, .ok acc)
  | f + 1, env, st, dot, c :: cs, acc =>
    match evalCommand f env st dot c acc with
    | (st1, .error e) => (st1, .error e)
    | (st1, .ok v) => evalCmds f env st1 dot cs v

/-- `evalCommand`: a backquoted string head is a raw gjson path query;
otherwise dispatch on the head word. -/
def evalCommand : Nat → Env → St → GRes → Cmd → GRes → St × Except EErr GRes
  | 0, _, st, _, _, _ => (st, .error .fuelOut)
  | f + 1, env, st, dot, c, final =>
    match c with
    | .mk head args =>
      match head with
      | .strT s =>
        if strHasPrefix s btick && strHasSuffix s btick && decide (2 ≤ s.data.length) then
          let path := strDropRight (strDrop s 1) 1
          let result := dot.get path
          if !result.existsB && env.missingKey == MKey.error then
            (st, .error (.f (.execErr st.tname (.pathNotFound path))))
          else if !args.isEmpty || final.existsB then
            (st, .error (.f (.execErr st.tname (.notAMethod path))))
          else (st, .ok result)
        else
          match notAFunctionChk st args final with
          | some fa => (st, .error (.f fa))
          | none => (st, .ok (mkStr s))
      | .field ids =>
        match evalFieldChain env st dot ids args final with
        | .ok v => (st, .ok v)
        | .error fa => (st, .error (.f fa))
      | .chain t fs => evalChainNode f env st dot t fs args final
      | .ident name => evalFunction f env st dot name args final
      | .pipeT p =>
        match notAFunctionChk st args final with
        | some fa => (st, .error (.f fa))
        | none => evalPipeline f env st dot p
      | .varT ids =>
        match evalVariableNode env st ids args final with
        | .ok v => (st, .ok v)
        | .error fa => (st, .error (.f fa))
      | .boolT b =>
        match notAFunctionChk st args final with
        | some fa => (st, .error (.f fa))
        | none => (st, .ok (mkBool b))
      | .dot =>
        match notAFunctionChk st args final with
        | some fa => (st, .error (.f fa))
        | none => (st, .ok dot)
      | .nilT =>
        match notAFunctionChk st args final with
        | some fa => (st, .error (.f fa))
        | none => (st, .error (.f (.execErr st.tname .nilCommand)))
      | .numT n =>
        match notAFunctionChk st args final with
        | some fa => (st, .error (.f fa))
        | none => (st, .ok (mkNum n))

/-- `evalChainNode`: `(pipe).Field1.Field2` — evaluate the receiver,
then the field chain against it. -/
def evalChainNode : Nat → Env → St → GRes → Term → List String → List Term → GRes → St × Except EErr GRes
  | 0, _, st, _, _, _, _, _ => (st, .error .fuelOut)
  | f + 1, env, st, dot, t, fields, args, final =>
    if fields.isEmpty then
      (st, .error (.f (.execErr st.tname .internalNoFields)))
    else if (match t with | .nilT => true | _ => false) then
      (st, .error (.f (.execErr st.tname .nilIndirection)))
    else
      match evalArg f env st dot t with
      | (st1, .error e) => (st1, .error e)
      | (st1, .ok receiver) =>
        match evalFieldChain env st1 receiver fields args final with
        | .ok v => (st1, .ok v)
        | .error fa => (st1, .error (.f fa))

/-- `evalArg`: evaluate a single argument.  A plain string argument is
never treated as a gjson path here, matching the source. -/
def evalArg : Nat → Env → St → GRes → Term → St × Except EErr GRes
  | 0, _, st, _, _ => (st, .error .fuelOut)
  | f + 1, env, st, dot, t =>
    match t with
    | .dot => (st, .ok dot)
    | .nilT => (st, .ok nullV)
    | .field ids =>
      match evalFieldChain env st dot ids [] GRes.empty with
      | .ok v => (st, .ok v)
      | .error fa => (st, .error (.f fa))
    | .varT ids =>
      match evalVariableNode env st ids [] GRes.empty with
      | .ok v => (st, .ok v)
      | .error fa => (st, .error (.f fa))
    | .pipeT p => evalPipeline f env st dot p
    | .ident name => evalFunction f env st dot name [] GRes.empty
    | .chain tt fs => evalChainNode f env st dot tt fs [] GRes.empty
    | .boolT b => (st, .ok (mkBool b))
    | .numT n => (st, .ok (mkNum n))
    | .strT s => (st, .ok (mkStr s))

def evalArgs : Nat → Env → St → GRes → List Term → St × Except EErr (List GRes)
  | 0, _, st, _, _ => (st, .error .fuelOut)
  | _ + 1, _, st, _, [] => (st, .ok [])
  | f + 1, env, st, dot, a :: rest =>
    match evalArg f env st dot a with
    | (st1, .error e) => (st1, .error e)
    | (st1, .ok v) =>
      match evalArgs f env st1 dot rest with
      | (st2, .error e) => (st2, .error e)
      | (st2, .ok vs) => (st2, .ok (v :: vs))

/-- The short-circuit loop of `and`/`or`: arguments evaluate left to
right; `and` returns the first falsy argument's value, `or` the first
truthy one's; otherwise the last argument's value is returned. -/
def evalAndOr : Nat → Bool → Env → St → GRes → List Term → GRes → St × Except EErr GRes
  | 0, _, _, st, _, _, _ => (st, .error .fuelOut)
  | _ + 1, _, _, st, _, [], last => (st, .ok last)
  | f + 1, isAnd, env, st, dot, a :: rest, _ =>
    match evalArg f env st dot a with
    | (st1, .error e) => (st1, .error e)
    | (st1, .ok v) =>
      match isGjsonTrue v with
      | (_, false) => (st1, .error (.f (.execErr st1.tname .badAndOrValue)))
      | (truth, true) =>
        if isAnd then
          if truth = false then (st1, .ok v)
          else evalAndOr f isAnd env st1 dot rest v
        else
          if truth then (st1, .ok v)
          else evalAndOr f isAnd env st1 dot rest v

/-- `evalFunction`: the fixed builtin set, then printf/sprintf, then
the registered function map. -/
def evalFunction : Nat → Env → St → GRes → String → List Term → GRes → St × Except EErr GRes
  | 0, _, st, _, _, _, _ => (st, .error .fuelOut)
  | f + 1, env, st, dot, name, args, final =>
    if name == "gjson" then
      match args with
      | [a] =>
        match evalArg f env st dot a with
        | (st1, .error e) => (st1, .error e)
        | (st1, .ok pathArg) =>
          if pathArg.type != GType.String then
            (st1, .error (.f (.execErr st1.tname (.badArgValue name))))
          else
            let result := dot.get pathArg.string
            if !result.existsB && env.missingKey == MKey.error then
              (st1, .error (.f (.execErr st1.tname (.pathNotFound pathArg.string))))
            else (st1, .ok result)
      | _ => (st, .error (.f (.execErr st.tname (.wrongArgCount name))))
    else if name == "len" then
      match args with
      | [a] =>
        match evalArg f env st dot a with
        | (st1, .error e) => (st1, .error e)
        | (st1, .ok arg) =>
          if arg.isArray then (st1, .ok (mkNum (Int.ofNat arg.arr.length)))
          else if arg.isObject then (st1, .ok (mkNum (Int.ofNat arg.obj.length)))
          else if arg.type == GType.String then
            (st1, .ok (mkNum (Int.ofNat (strUtf8Len arg.string))))
          else (st1, .ok (mkNum 0))
      | _ => (st, .error (.f (.execErr st.tname (.wrongArgCount name))))
    else if name == "index" then
      match args with
      | a1 :: a2 :: _ =>
        match evalArg f env st dot a1 with
        | (st1, .error e) => (st1, .error e)
        | (st1, .ok container) =>
          match evalArg f env st1 dot a2 with
          | (st2, .error e) => (st2, .error e)
          | (st2, .ok key) =>
            if container.isArray then
              if key.type != GType.Number then
                (st2, .error (.f (.execErr st2.tname .indexNotInt)))
              else
                let idx := key.num
                if idx < 0 || idx ≥ Int.ofNat container.arr.length then
                  (st2, .error (.f (.execErr st2.tname (.idxOutOfRange idx))))
                else (st2, .ok (container.arr.getD idx.toNat GRes.empty))
            else if container.isObject then (st2, .ok (container.get key.string))
            else (st2, .error (.f (.execErr st2.tname .cantIndex)))
      | _ => (st, .error (.f (.execErr st.tname (.wrongArgCount name))))
    else if name == "print" || name == "println" then
      match evalArgs f env st dot args with
      | (st1, .error e) => (st1, .error e)
      | (st1, .ok vs) =>
        let out := joinSpace (vs.map GRes.string)
        let out := if name == "println" then out ++ "\n" else out
        (st1, .ok (mkStr out))
    else if name == "and" || name == "or" then
      if args.isEmpty then (st, .error (.f (.execErr st.tname (.wrongArgCount name))))
      else evalAndOr f (name == "and") env st dot args GRes.empty
    else if name == "not" then
      match args with
      | [a] =>
        match evalArg f env st dot a with
        | (st1, .error e) => (st1, .error e)
        | (st1, .ok arg) =>
          match isGjsonTrue arg with
          | (_, false) => (st1, .error (.f (.execErr st1.tname .badNotValue)))
          | (truth, true) => (st1, .ok (mkBool (!truth)))
      | _ => (st, .error (.f (.execErr st.tname (.wrongArgCount name))))
    else if name == "eq" || name == "ne" || name == "lt" || name == "le"
        || name == "gt" || name == "ge" then
      match args with
      | a1 :: a2 :: _ =>
        match evalArg f env st dot a1 with
        | (st1, .error e) => (st1, .error e)
        | (st1, .ok v1) =>
          match evalArg f env st1 dot a2 with
          | (st2, .error e) => (st2, .error e)
          | (st2, .ok v2) => (st2, .ok (mkBool (compareOp name v1 v2)))
      | _ => (st, .error (.f (.execErr st.tname (.wrongArgCount name))))
    else if name == "html" then
      match args with
      | [a] =>
        match evalArg f env st dot a with
        | (st1, .error e) => (st1, .error e)
        | (st1, .ok arg) => (st1, .ok (mkStr (env.htmlEsc arg.string)))
      | _ => (st, .error (.f (.execErr st.tname (.wrongArgCount name))))
    else if name == "js" then
      match args with
      | [a] =>
        match evalArg f env st dot a with
        | (st1, .error e) => (st1, .error e)
        | (st1, .ok arg) => (st1, .ok (mkStr (env.jsEsc arg.string)))
      | _ => (st, .error (.f (.execErr st.tname (.wrongArgCount name))))
    else if name == "urlquery" then
      match args with
      | [a] =>
        match evalArg f env st dot a with
        | (st1, .error e) => (st1, .error e)
        | (st1, .ok arg) => (st1, .ok (mkStr (env.urlEsc arg.string)))
      | _ => (st, .error (.f (.execErr st.tname (.wrongArgCount name))))
    else if name == "printf" || name == "sprintf" then
      match args with
      | fmt :: rest =>
        match evalArg f env st dot fmt with
        | (st1, .error e) => (st1, .error e)
        | (st1, .ok formatArg) =>
          if formatArg.type != GType.String then
            (st1, .error (.f (.execErr st1.tname (.badArgValue name))))
          else
            match evalArgs f env st1 dot rest with
            | (st2, .error e) => (st2, .error e)
            | (st2, .ok goArgs) =>
              let out :=
                if goArgs.length > 0 then env.fmtS formatArg.string goArgs
                else if final.existsB then env.fmtS formatArg.string [final]
                else formatArg.string
              (st2, .ok (mkStr out))
      | [] => (st, .error (.f (.execErr st.tname (.wrongArgCount name))))
    else
      match env.funcs name with
      | some fn =>
        match evalArgs f env st dot args with
        | (st1, .error e) => (st1, .error e)
        | (st1, .ok vs) =>
          match fn vs with
          | .error msg => (st1, .error (.f (.execErr st1.tname (.funcCallErr name msg))))
          | .ok r => (st1, .ok r)
      | none => (st, .error (.f (.execErr st.tname (.funcNotImpl name))))

end

/-- Result of a top-level `Execute` call, after `errRecover`: success,
the rejection of non-object/array input data, the sink's original error
(the `writeError` wrapper stripped), an `ExecError` (kept, carrying the
template name), an escaped loop-control signal (which `errRecover`
re-panics), or fuel exhaustion of the model. -/
inductive TopResult where
  | ok
  | errData (tname : String)
  | errWrite (orig : String)
  | errExec (tname : String) (kind : ErrKind)
  | panicked
  | fuelOut
deriving DecidableEq, Repr

/-- `Template.execute`: reject input whose parsed form is neither a JSON
object nor an array before any node is evaluated; reject an incomplete
template; otherwise walk the root with `$` bound to the document, and
classify the outcome as `errRecover` does. -/
def executeT (fuel : Nat) (env : Env) (root : Option Node) (tname : String)
    (w : Writer) (data : GRes) : TopResult × Writer :=
  if !data.isObject && !data.isArray then (.errData tname, w)
  else
    match root with
    | none => (.errExec tname .incompleteTemplate, w)
    | some r =>
      let st0 : St := { tname := tname, vars := [("$", data)], depth := 0, wr := w }
      match walk fuel env st0 data r with
      | (st1, .normal) => (.ok, st1.wr)
      | (st1, .err (.f (.writeErr o))) => (.errWrite o, st1.wr)
      | (st1, .err (.f (.execErr n k))) => (.errExec n k, st1.wr)
      | (st1, .err .fuelOut) => (.fuelOut, st1.wr)
      | (st1, .brk) => (.panicked, st1.wr)
      | (st1, .cont) => (.panicked, st1.wr)

/-! ## Spec-side definitions

These are written from the specification's words (not from the code) and
are compared with the embedded code by the refinement theorems below. -/

/-- Modelled from the spec: the truthiness table of §4.2 — Null→false;
False→false; True→true; Number→(value≠0); String→(nonempty);
Array/Object→ true unless its raw text equals one of the empty forms
`""`, `"[]"`, `"\x7b\x7d"`.  A JSON-typed value that is neither array
nor object is not covered by the table (`none`). -/
def truthSpec (v : GRes) : Option Bool :=
  match v.type with
  | GType.Null => some false
  | GType.False => some false
  | GType.True => some true
  | GType.Number => some (v.num != 0)
  | GType.String => some (v.str != "")
  | GType.JSON =>
    if v.isArray || v.isObject then
      some (!(v.raw == "" || v.raw == "[]" || v.raw == "\x7b\x7d"))
    else none

/-- Modelled from the spec: the printValue rule of §4.4 — an
absent/nonexistent value renders as the empty string; a String renders
as its unquoted text; an Array/Object renders as its raw canonical JSON
text; everything else renders as its canonical literal text. -/
def printSpec (v : GRes) : String :=
  if !v.existsB then ""
  else if v.type == GType.String then v.str
  else if v.isArray || v.isObject then v.raw
  else v.raw

/-- Modelled from the spec: `and` returns the first falsy argument's
value (or the last argument's value if all are truthy); `or` returns the
first truthy argument's value (or the last if all are falsy). -/
def specAndOr (isAnd : Bool) (vs : List GRes) : Option GRes :=
  match vs.find? (fun v => (isGjsonTrue v).1 == !isAnd) with
  | some v => some v
  | none => vs.getLast?

/-- An argument list whose evaluation is pure: each term evaluates, in
any state and with any positive fuel, to the corresponding value without
touching the state (literals, for instance). -/
def PureArgs (env : Env) (dot : GRes) : List Term → List GRes → Prop
  | [], [] => True
  | a :: as2, v :: vs =>
    (∀ st g, evalArg (g + 1) env st dot a = (st, .ok v)) ∧ PureArgs env dot as2 vs
  | _, _ => False

/-! ## State-evolution invariants

Every operation of the engine only ever pushes new bindings on top of
the stack, mutates the values (never the names) of existing bindings,
or truncates the stack back to a mark it captured itself; and the only
write-fault payload it can raise is the sink's configured error. -/

/-- `st2` extends `st`: the stack kept at least the entry bindings with
their names intact, and the sink error text is unchanged. -/
def presSt (st st2 : St) : Prop :=
  st.vars.length ≤ st2.vars.length ∧
  (st2.vars.take st.vars.length).map Prod.fst = st.vars.map Prod.fst ∧
  st2.wr.errMsg = st.wr.errMsg

/-- `st2` has exactly the same binding names as `st` (values may have
been reassigned) and the same sink error text. -/
def sameNames (st st2 : St) : Prop :=
  st2.vars.map Prod.fst = st.vars.map Prod.fst ∧ st2.wr.errMsg = st.wr.errMsg

def errOK (st : St) : EErr → Prop
  | .f (.writeErr o) => o = st.wr.errMsg
  | _ => True

def exitOK (st : St) : Exit → Prop
  | .err e => errOK st e
  | _ => True

def exceptOK (st : St) : Except EErr GRes → Prop
  | .error e => errOK st e
  | .ok _ => True

def exceptOKL (st : St) : Except EErr (List GRes) → Prop
  | .error e => errOK st e
  | .ok _ => True

theorem presSt_refl (st : St) : presSt st st :=
  ⟨Nat.le_refl _, by rw [List.take_of_length_le (Nat.le_refl _)], rfl⟩

theorem presSt_trans {st1 st2 st3 : St} (h1 : presSt st1 st2) (h2 : presSt st2 st3) :
    presSt st1 st3 := by
  obtain ⟨l1, n1, e1⟩ := h1
  obtain ⟨l2, n2, e2⟩ := h2
  refine ⟨Nat.le_trans l1 l2, ?_, e2.trans e1⟩
  have h3 : (st3.vars.take st1.vars.length) = (st3.vars.take st2.vars.length).take st1.vars.length := by
    rw [List.take_take, Nat.min_eq_left l1]
  rw [h3, List.map_take, n2, ← List.map_take, n1]

theorem sameNames_length {st st2 : St} (h : sameNames st st2) :
    st2.vars.length = st.vars.length := by
  have := congrArg List.length h.1
  simpa using this

theorem sameNames_presSt {st st2 : St} (h : sameNames st st2) : presSt st st2 := by
  obtain ⟨n, e⟩ := h
  have hl := congrArg List.length n
  simp only [List.length_map] at hl
  exact ⟨Nat.le_of_eq hl.symm,
    by rw [List.take_of_length_le (Nat.le_of_eq hl), n], e⟩

theorem sameNames_refl (st : St) : sameNames st st := ⟨rfl, rfl⟩

theorem sameNames_trans {st1 st2 st3 : St} (h1 : sameNames st1 st2)
    (h2 : sameNames st2 st3) : sameNames st1 st3 :=
  ⟨h2.1.trans h1.1, h2.2.trans h1.2⟩

theorem errOK_mono {st st2 : St} (h : st2.wr.errMsg = st.wr.errMsg) {e : EErr}
    (he : errOK st2 e) : errOK st e := by
  cases e with
  | fuelOut => trivial
  | f fa =>
    cases fa with
    | execErr _ _ => trivial
    | writeErr o => simpa [errOK, h] using he

theorem exitOK_mono {st st2 : St} (h : st2.wr.errMsg = st.wr.errMsg) {ex : Exit}
    (he : exitOK st2 ex) : exitOK st ex := by
  cases ex with
  | err e => exact errOK_mono h he
  | _ => trivial

/-- Writing to the sink preserves its configured error text. -/
theorem write_errMsg (w : Writer) (s : String) : (w.write s).1.errMsg = w.errMsg := by
  unfold Writer.write
  rcases w with ⟨b, e, out⟩
  cases b with
  | none => rfl
  | some n => cases n <;> rfl

/-- A failing write returns the sink's configured error. -/
theorem write_fail (w : Writer) (s : String) {e : String}
    (h : (w.write s).2 = some e) : e = w.errMsg := by
  unfold Writer.write at h
  rcases w with ⟨b, msg, out⟩
  cases b with
  | none => simp at h
  | some n =>
    cases n with
    | zero => simp at h; exact h.symm
    | succ n => simp at h

theorem push_presSt (st : St) (name : String) (v : GRes) : presSt st (st.push name v) := by
  refine ⟨?_, ?_, rfl⟩
  · simp [St.push]
  · simp [St.push, List.take_left]

theorem setVarList_names :
    ∀ (vars : List (String × GRes)) (name : String) (v : GRes) vars2,
      setVarList vars name v = some vars2 →
        vars2.map Prod.fst = vars.map Prod.fst := by
  intro vars
  induction vars with
  | nil => intro name v vars2 h; simp [setVarList] at h
  | cons p rest ih =>
    intro name v vars2 h
    rcases p with ⟨n, pv⟩
    simp only [setVarList] at h
    rcases hrec : setVarList rest name v with _ | rest2
    · rw [hrec] at h
      by_cases hn : (n == name) = true
      · simp [hn] at h
        subst h
        simp
      · simp [hn] at h
    · rw [hrec] at h
      simp at h
      subst h
      simp [ih name v rest2 hrec]

theorem list_set_self {α : Type} :
    ∀ (l : List α) (i : Nat) (a : α), l.get? i = some a → l.set i a = l := by
  intro l
  induction l with
  | nil => intro i a h; simp at h
  | cons x rest ih =>
    intro i a h
    cases i with
    | zero =>
      simp only [List.get?] at h
      cases h
      rfl
    | succ i =>
      simp only [List.get?] at h
      simp [List.set, ih i a h]

theorem setTop_names (st : St) (n : Nat) (v : GRes) :
    (st.setTop n v).vars.map Prod.fst = st.vars.map Prod.fst := by
  unfold St.setTop
  simp only
  split
  · rename_i p h
    simp only
    rw [List.map_set]
    apply list_set_self
    rw [List.get?_map, h]
    rfl
  · rfl

theorem setTop_wr (st : St) (n : Nat) (v : GRes) : (st.setTop n v).wr = st.wr := by
  unfold St.setTop
  simp only
  split <;> rfl

theorem trySetVar_P (st st2 : St) (name : String) (v : GRes) :
    sameNames st (trySetVar st name v).1 ∧
      (∀ fa, (trySetVar st name v).2 = some fa → errOK st2 (.f fa)) := by
  unfold trySetVar
  rcases h : setVarList st.vars name v with _ | vars2
  · exact ⟨sameNames_refl st, fun fa hh => by cases hh; trivial⟩
  · exact ⟨⟨setVarList_names _ _ _ _ h, rfl⟩, fun fa hh => by cases hh⟩

theorem applyDecls_presSt (decl : List String) :
    ∀ (st : St) (ia : Bool) (v : GRes), presSt st (applyDecls st decl ia v).1 := by
  induction decl with
  | nil => intro st ia v; exact presSt_refl st
  | cons name rest ih =>
    intro st ia v
    simp only [applyDecls]
    by_cases hia : ia = true
    · rw [if_pos hia]
      have ht := trySetVar_P st st name v
      rcases h : trySetVar st name v with ⟨st1, fo⟩
      rw [h] at ht
      cases fo with
      | none => exact presSt_trans (sameNames_presSt ht.1) (ih st1 ia v)
      | some fa => exact sameNames_presSt ht.1
    · rw [if_neg hia]
      exact presSt_trans (push_presSt st name v) (ih _ _ _)

/-- Truncating an extension back to the entry length restores exactly
the entry names. -/
theorem popTo_sameNames {st st2 : St} (h : presSt st st2) :
    sameNames st (st2.popTo st.vars.length) := by
  obtain ⟨l, n, e⟩ := h
  exact ⟨n, e⟩

/-- A name that is not bound does not resolve. -/
theorem varLookup_eq_none :
    ∀ (vars : List (String × GRes)) (name : String),
      name ∉ vars.map Prod.fst → varLookup vars name = none := by
  intro vars
  induction vars with
  | nil => intro name _; rfl
  | cons p rest ih =>
    intro name h
    simp only [List.map_cons, List.mem_cons] at h
    push_neg at h
    simp only [varLookup, ih name h.2]
    have : (p.1 == name) = false := by
      simp only [beq_eq_false_iff_ne]
      exact fun hc => h.1 hc.symm
    rcases p with ⟨n, v⟩
    simp only at this
    simp [this]

/-! ## The invariant bundle and its helper lemmas -/

def WalkP (st : St) (r : St × Exit) : Prop := presSt st r.1 ∧ exitOK st r.2

def EvalP (st : St) (r : St × Except EErr GRes) : Prop := presSt st r.1 ∧ exceptOK st r.2

def EvalPL (st : St) (r : St × Except EErr (List GRes)) : Prop :=
  presSt st r.1 ∧ exceptOKL st r.2

/-- Property of one range iteration / iteration sequence, relative to
the loop mark it pops to: when the mark equals the entry stack length,
the iteration restores exactly the entry binding names. -/
def IterP (mark : Nat) (st : St) (r : St × Exit) : Prop :=
  mark = st.vars.length → sameNames st r.1 ∧ exitOK st r.2

theorem presSt_errMsg {st st2 : St} (h : presSt st st2) : st2.wr.errMsg = st.wr.errMsg :=
  h.2.2

theorem WalkP_mono {st st1 : St} {r : St × Exit} (h : presSt st st1) (hr : WalkP st1 r) :
    WalkP st r :=
  ⟨presSt_trans h hr.1, exitOK_mono h.2.2 hr.2⟩

theorem EvalP_mono {st st1 : St} {r : St × Except EErr GRes} (h : presSt st st1)
    (hr : EvalP st1 r) : EvalP st r := by
  refine ⟨presSt_trans h hr.1, ?_⟩
  rcases r with ⟨st2, v⟩
  cases v with
  | ok _ => trivial
  | error e => exact errOK_mono h.2.2 hr.2

theorem EvalPL_mono {st st1 : St} {r : St × Except EErr (List GRes)} (h : presSt st st1)
    (hr : EvalPL st1 r) : EvalPL st r := by
  refine ⟨presSt_trans h hr.1, ?_⟩
  rcases r with ⟨st2, v⟩
  cases v with
  | ok _ => trivial
  | error e => exact errOK_mono h.2.2 hr.2

theorem presSt_wr {st : St} {w : Writer} (h : w.errMsg = st.wr.errMsg) :
    presSt st { st with wr := w } :=
  ⟨Nat.le_refl _, by rw [List.take_of_length_le (Nat.le_refl _)], h⟩

/-- `printValue` preserves the stack, preserves the sink error text, and
only raises the sink's configured error. -/
theorem printValue_P (st : St) (v : GRes) : WalkP st (printValue st v) := by
  unfold printValue
  rcases hw : st.wr.write (printString v) with ⟨w, e⟩
  have hmsg : w.errMsg = st.wr.errMsg := by
    have := write_errMsg st.wr (printString v)
    rw [hw] at this
    exact this
  cases e with
  | none => exact ⟨presSt_wr hmsg, trivial⟩
  | some er =>
    refine ⟨presSt_wr hmsg, ?_⟩
    have : er = st.wr.errMsg := by
      apply write_fail st.wr (printString v)
      rw [hw]
    exact this

/-- Faults raised by `evalFieldChain` are execution faults. -/
theorem evalFieldChain_errOK (env : Env) (st st2 : St) (receiver : GRes)
    (ident : List String) (args : List Term) (final : GRes) {fa : Fault}
    (h : evalFieldChain env st receiver ident args final = .error fa) :
    errOK st2 (.f fa) := by
  unfold evalFieldChain at h
  dsimp only at h
  by_cases h1 : (!(receiver.get (joinDot ident)).existsB && env.missingKey == MKey.error) = true
  · rw [if_pos h1] at h
    cases h
    trivial
  · rw [if_neg h1] at h
    by_cases h2 : (!args.isEmpty || final.existsB) = true
    · rw [if_pos h2] at h
      cases h
      trivial
    · rw [if_neg h2] at h
      cases h

/-- Faults raised by `notAFunctionChk` are execution faults. -/
theorem notAFunctionChk_errOK (st st2 : St) (args : List Term) (final : GRes) {fa : Fault}
    (h : notAFunctionChk st args final = some fa) : errOK st2 (.f fa) := by
  unfold notAFunctionChk at h
  by_cases h1 : (!args.isEmpty || final.existsB) = true
  · rw [if_pos h1] at h
    cases h
    trivial
  · rw [if_neg h1] at h
    cases h

/-- Faults raised by `evalVariableNode` are execution faults. -/
theorem evalVariableNode_errOK (env : Env) (st st2 : St) (idents : List String)
    (args : List Term) (final : GRes) {fa : Fault}
    (h : evalVariableNode env st idents args final = .error fa) :
    errOK st2 (.f fa) := by
  cases idents with
  | nil =>
    unfold evalVariableNode at h
    cases h
    trivial
  | cons name rest =>
    unfold evalVariableNode at h
    dsimp only at h
    rcases hv : varLookup st.vars name with _ | value
    · rw [hv] at h
      cases h
      trivial
    · rw [hv] at h
      dsimp only at h
      by_cases hr : rest.isEmpty = true
      · rw [if_pos hr] at h
        rcases hc : notAFunctionChk st args final with _ | fa2
        · rw [hc] at h
          cases h
        · rw [hc] at h
          cases h
          exact notAFunctionChk_errOK st st2 args final hc
      · rw [if_neg hr] at h
        exact evalFieldChain_errOK env st st2 _ _ _ _ h

/-- `rangeBind1` preserves the stack names and only raises execution
faults. -/
theorem rangeBind1_P (st st2 : St) (pipe : Pipe) (i e : GRes) :
    sameNames st (rangeBind1 st pipe i e).1 ∧
      (∀ fa, (rangeBind1 st pipe i e).2 = some fa → errOK st2 (.f fa)) := by
  unfold rangeBind1
  rcases hd : pipe.decl with _ | ⟨d0, rest⟩
  · simp only [hd]
    exact ⟨sameNames_refl st, by intro fa h; cases h⟩
  · simp only [hd]
    by_cases hia : pipe.isAssign = true
    · rw [if_pos hia]
      exact trySetVar_P st st2 d0 _
    · rw [if_neg hia]
      exact ⟨⟨setTop_names st 1 e, by rw [setTop_wr]⟩, by intro fa h; cases h⟩

theorem rangeBind2_P (st st2 : St) (pipe : Pipe) (i e : GRes) :
    sameNames st (rangeBind2 st pipe i e).1 ∧
      (∀ fa, (rangeBind2 st pipe i e).2 = some fa → errOK st2 (.f fa)) := by
  unfold rangeBind2
  by_cases hlen : pipe.decl.length > 1
  · rw [if_pos hlen]
    rcases hd : pipe.decl with _ | ⟨d0, rest⟩
    · simp only [hd]
      exact ⟨sameNames_refl st, by intro fa h; cases h⟩
    · rcases rest with _ | ⟨d1, rest2⟩
      · simp only [hd]
        exact ⟨sameNames_refl st, by intro fa h; cases h⟩
      · simp only [hd]
        by_cases hia : pipe.isAssign = true
        · rw [if_pos hia]
          exact trySetVar_P st st2 d1 e
        · rw [if_neg hia]
          exact ⟨⟨setTop_names st 2 i, by rw [setTop_wr]⟩, by intro fa h; cases h⟩
  · rw [if_neg hlen]
    exact ⟨sameNames_refl st, by intro fa h; cases h⟩

/-- Faults raised by `applyDecls` are execution faults. -/
theorem applyDecls_errOK (decl : List String) :
    ∀ (st st2 : St) (ia : Bool) (v : GRes) fa,
      (applyDecls st decl ia v).2 = some fa → errOK st2 (.f fa) := by
  induction decl with
  | nil => intro st st2 ia v fa h; cases h
  | cons name rest ih =>
    intro st st2 ia v fa h
    simp only [applyDecls] at h
    by_cases hia : ia = true
    · rw [if_pos hia] at h
      have ht := trySetVar_P st st2 name v
      rcases hts : trySetVar st name v with ⟨st1, fo⟩
      rw [hts] at h ht
      cases fo with
      | none => exact ih st1 st2 ia v fa h
      | some fa2 =>
        cases h
        exact ht.2 _ rfl
    · rw [if_neg hia] at h
      exact ih _ st2 _ _ _ h

/-- The central invariant of the engine, proved for the whole mutual
family by induction on the fuel: every operation preserves the entry
bindings' names (it may push new bindings, reassign values in place, or
truncate back to a mark it captured itself), never changes the sink's
configured error text, and the only write-fault payload it can raise is
that error text.  Iterations additionally restore the stack names
exactly, relative to the loop mark. -/
theorem pres_all : ∀ f : Nat,
    (∀ env st dot n, WalkP st (walk f env st dot n)) ∧
    (∀ env st dot ns, WalkP st (walkList f env st dot ns)) ∧
    (∀ w env st dot pipe l el, WalkP st (walkIfOrWithInner f w env st dot pipe l el)) ∧
    (∀ w env st dot pipe l el, WalkP st (walkIfOrWith f w env st dot pipe l el)) ∧
    (∀ env st dot pipe l el, WalkP st (walkRangeInner f env st dot pipe l el)) ∧
    (∀ env st dot pipe l el, WalkP st (walkRange f env st dot pipe l el)) ∧
    (∀ env st pipe body mark prs, IterP mark st (rangeIter f env st pipe body mark prs)) ∧
    (∀ env st pipe body mark i e, IterP mark st (oneIteration f env st pipe body mark i e)) ∧
    (∀ env st dot name p, WalkP st (walkTemplate f env st dot name p)) ∧
    (∀ env st dot p, EvalP st (evalPipelineOpt f env st dot p)) ∧
    (∀ env st dot pipe, EvalP st (evalPipeline f env st dot pipe)) ∧
    (∀ env st dot cs acc, EvalP st (evalCmds f env st dot cs acc)) ∧
    (∀ env st dot c fin, EvalP st (evalCommand f env st dot c fin)) ∧
    (∀ env st dot t fs args fin, EvalP st (evalChainNode f env st dot t fs args fin)) ∧
    (∀ env st dot t, EvalP st (evalArg f env st dot t)) ∧
    (∀ env st dot ts, EvalPL st (evalArgs f env st dot ts)) ∧
    (∀ ia env st dot ts last, EvalP st (evalAndOr f ia env st dot ts last)) ∧
    (∀ env st dot name args fin, EvalP st (evalFunction f env st dot name args fin)) := by
  intro f
  induction f with
  | zero =>
    refine ⟨?_, ?_, ?_, ?_, ?_, ?_, ?_, ?_, ?_, ?_, ?_, ?_, ?_, ?_, ?_, ?_, ?_, ?_⟩ <;> intros <;>
      first
        | exact ⟨presSt_refl _, trivial⟩
        | exact fun _ => ⟨sameNames_refl _, trivial⟩
  | succ f ih =>
    obtain ⟨ihWalk, ihList, ihIfWI, ihIfW, ihRangeI, ihRange, ihIter, ihOne, ihTmpl, ihPOpt,
      ihPipe, ihCmds, ihCmd, ihChain, ihArg, ihArgs, ihAndOr, ihFn⟩ := ih
    refine ⟨?_, ?_, ?_, ?_, ?_, ?_, ?_, ?_, ?_, ?_, ?_, ?_, ?_, ?_, ?_, ?_, ?_, ?_⟩
    -- walk
    · intro env st dot n
      cases n with
      | text s =>
        simp only [walk]
        rcases hw : st.wr.write s with ⟨w, e⟩
        have hmsg : w.errMsg = st.wr.errMsg := by
          have h2 := write_errMsg st.wr s
          rw [hw] at h2
          exact h2
        cases e with
        | none => exact ⟨presSt_wr hmsg, trivial⟩
        | some er =>
          refine ⟨presSt_wr hmsg, ?_⟩
          apply write_fail st.wr s
          rw [hw]
      | comment => exact ⟨presSt_refl _, trivial⟩
      | breakN => exact ⟨presSt_refl _, trivial⟩
      | continueN => exact ⟨presSt_refl _, trivial⟩
      | action pipe =>
        simp only [walk]
        have h9 := ihPipe env st dot pipe
        rcases hp : evalPipeline f env st dot pipe with ⟨st1, r⟩
        rw [hp] at h9
        cases r with
        | error e => exact ⟨h9.1, h9.2⟩
        | ok v =>
          try dsimp only
          by_cases hd : pipe.decl.isEmpty = true
          · rw [if_pos hd]
            exact WalkP_mono h9.1 (printValue_P st1 v)
          · rw [if_neg hd]
            exact ⟨h9.1, trivial⟩
      | listN ns => exact ihList env st dot ns
      | ifN pipe l el => exact ihIfW false env st dot pipe l el
      | withN pipe l el => exact ihIfW true env st dot pipe l el
      | rangeN pipe l el => exact ihRange env st dot pipe l el
      | tmplN name p => exact ihTmpl env st dot name p
    -- walkList
    · intro env st dot ns
      cases ns with
      | nil => exact ⟨presSt_refl _, trivial⟩
      | cons n rest =>
        simp only [walkList]
        have h1 := ihWalk env st dot n
        rcases hw : walk f env st dot n with ⟨st1, ex⟩
        rw [hw] at h1
        cases ex with
        | normal => exact WalkP_mono h1.1 (ihList env st1 dot rest)
        | brk => exact h1
        | cont => exact h1
        | err e => exact h1
    -- walkIfOrWithInner
    · intro w env st dot pipe l el
      simp only [walkIfOrWithInner]
      have h9 := ihPipe env st dot pipe
      rcases hp : evalPipeline f env st dot pipe with ⟨st1, r⟩
      rw [hp] at h9
      cases r with
      | error e => exact ⟨h9.1, h9.2⟩
      | ok v =>
        try dsimp only
        rcases ht : isGjsonTrue v with ⟨truth, okb⟩
        cases okb with
        | false => exact ⟨h9.1, trivial⟩
        | true =>
          cases truth with
          | true =>
            cases w with
            | true =>
              try dsimp only
              have h1 := ihWalk env st1 v l
              rcases hw : walk f env st1 v l with ⟨st2, ex⟩
              rw [hw] at h1
              exact ⟨presSt_trans h9.1 h1.1, exitOK_mono h9.1.2.2 h1.2⟩
            | false =>
              try dsimp only
              have h1 := ihWalk env st1 dot l
              rcases hw : walk f env st1 dot l with ⟨st2, ex⟩
              rw [hw] at h1
              exact ⟨presSt_trans h9.1 h1.1, exitOK_mono h9.1.2.2 h1.2⟩
          | false =>
            cases el with
            | some e2 =>
              try dsimp only
              have h1 := ihWalk env st1 dot e2
              rcases hw : walk f env st1 dot e2 with ⟨st2, ex⟩
              rw [hw] at h1
              exact ⟨presSt_trans h9.1 h1.1, exitOK_mono h9.1.2.2 h1.2⟩
            | none => exact ⟨h9.1, trivial⟩
    -- walkIfOrWith
    · intro w env st dot pipe l el
      simp only [walkIfOrWith]
      have hI := ihIfWI w env st dot pipe l el
      rcases hR : walkIfOrWithInner f w env st dot pipe l el with ⟨stR, exR⟩
      rw [hR] at hI
      exact ⟨sameNames_presSt (popTo_sameNames hI.1), hI.2⟩
    -- walkRangeInner
    · intro env st dot pipe l el
      simp only [walkRangeInner]
      have h9 := ihPipe env st dot pipe
      rcases hp : evalPipeline f env st dot pipe with ⟨st1, r⟩
      rw [hp] at h9
      cases r with
      | error e => exact ⟨h9.1, h9.2⟩
      | ok val =>
        try dsimp only
        by_cases hA : val.isArray = true
        · rw [if_pos hA]
          by_cases hE : val.arr.isEmpty = true
          · rw [if_pos hE]
            cases el with
            | some e2 =>
              try dsimp only
              have h1 := ihWalk env st1 dot e2
              rcases hw : walk f env st1 dot e2 with ⟨st2, ex⟩
              rw [hw] at h1
              exact ⟨presSt_trans h9.1 h1.1, exitOK_mono h9.1.2.2 h1.2⟩
            | none => exact ⟨h9.1, trivial⟩
          · rw [if_neg hE]
            have h5 := ihIter env st1 pipe l st1.vars.length (arrayPairs val.arr)
            rcases hri : rangeIter f env st1 pipe l st1.vars.length (arrayPairs val.arr)
              with ⟨st2, ex⟩
            rw [hri] at h5
            have h6 := h5 rfl
            exact ⟨presSt_trans h9.1 (sameNames_presSt h6.1), exitOK_mono h9.1.2.2 h6.2⟩
        · rw [if_neg hA]
          by_cases hO : val.isObject = true
          · rw [if_pos hO]
            by_cases hOE : (!val.existsB || val.raw == "\x7b\x7d") = true
            · rw [if_pos hOE]
              cases el with
              | some e2 =>
                try dsimp only
                have h1 := ihWalk env st1 dot e2
                rcases hw : walk f env st1 dot e2 with ⟨st2, ex⟩
                rw [hw] at h1
                exact ⟨presSt_trans h9.1 h1.1, exitOK_mono h9.1.2.2 h1.2⟩
              | none => exact ⟨h9.1, trivial⟩
            · rw [if_neg hOE]
              have h5 := ihIter env st1 pipe l st1.vars.length (objectPairs val.obj)
              rcases hri : rangeIter f env st1 pipe l st1.vars.length (objectPairs val.obj)
                with ⟨st2, ex⟩
              rw [hri] at h5
              have h6 := h5 rfl
              exact ⟨presSt_trans h9.1 (sameNames_presSt h6.1), exitOK_mono h9.1.2.2 h6.2⟩
          · rw [if_neg hO]
            by_cases hN : (val.type == GType.Number) = true
            · rw [if_pos hN]
              by_cases hD : pipe.decl.length > 1
              · rw [if_pos hD]
                exact ⟨h9.1, trivial⟩
              · rw [if_neg hD]
                by_cases hZ : val.num ≤ 0
                · rw [if_pos hZ]
                  cases el with
                  | some e2 =>
                    try dsimp only
                    have h1 := ihWalk env st1 dot e2
                    rcases hw : walk f env st1 dot e2 with ⟨st2, ex⟩
                    rw [hw] at h1
                    exact ⟨presSt_trans h9.1 h1.1, exitOK_mono h9.1.2.2 h1.2⟩
                  | none => exact ⟨h9.1, trivial⟩
                · rw [if_neg hZ]
                  have h5 := ihIter env st1 pipe l st1.vars.length (countPairs val.num.toNat)
                  rcases hri : rangeIter f env st1 pipe l st1.vars.length
                      (countPairs val.num.toNat) with ⟨st2, ex⟩
                  rw [hri] at h5
                  have h6 := h5 rfl
                  exact ⟨presSt_trans h9.1 (sameNames_presSt h6.1), exitOK_mono h9.1.2.2 h6.2⟩
            · rw [if_neg hN]
              by_cases hS : (val.type == GType.String) = true
              · rw [if_pos hS]
                by_cases hSE : (val.string == "") = true
                · rw [if_pos hSE]
                  cases el with
                  | some e2 =>
                    try dsimp only
                    have h1 := ihWalk env st1 dot e2
                    rcases hw : walk f env st1 dot e2 with ⟨st2, ex⟩
                    rw [hw] at h1
                    exact ⟨presSt_trans h9.1 h1.1, exitOK_mono h9.1.2.2 h1.2⟩
                  | none => exact ⟨h9.1, trivial⟩
                · rw [if_neg hSE]
                  have h5 := ihIter env st1 pipe l st1.vars.length (stringPairs val.string)
                  rcases hri : rangeIter f env st1 pipe l st1.vars.length
                      (stringPairs val.string) with ⟨st2, ex⟩
                  rw [hri] at h5
                  have h6 := h5 rfl
                  exact ⟨presSt_trans h9.1 (sameNames_presSt h6.1), exitOK_mono h9.1.2.2 h6.2⟩
              · rw [if_neg hS]
                exact ⟨h9.1, trivial⟩
    -- walkRange
    · intro env st dot pipe l el
      simp only [walkRange]
      have hI := ihRangeI env st dot pipe l el
      rcases hR : walkRangeInner f env st dot pipe l el with ⟨stR, exR⟩
      rw [hR] at hI
      cases exR with
      | normal => exact ⟨sameNames_presSt (popTo_sameNames hI.1), trivial⟩
      | brk => exact ⟨sameNames_presSt (popTo_sameNames hI.1), trivial⟩
      | cont => exact ⟨sameNames_presSt (popTo_sameNames hI.1), trivial⟩
      | err e => exact ⟨sameNames_presSt (popTo_sameNames hI.1), hI.2⟩
    -- rangeIter
    · intro env st pipe body mark prs
      cases prs with
      | nil => intro _; exact ⟨sameNames_refl _, trivial⟩
      | cons p rest =>
        intro hm
        simp only [rangeIter]
        have h6 := ihOne env st pipe body mark p.1 p.2
        rcases ho : oneIteration f env st pipe body mark p.1 p.2 with ⟨st1, ex⟩
        rw [ho] at h6
        have h7 := h6 hm
        cases ex with
        | normal =>
          try dsimp only
          have h5 := ihIter env st1 pipe body mark rest
          rcases hri : rangeIter f env st1 pipe body mark rest with ⟨st2, ex2⟩
          rw [hri] at h5
          have h8 := h5 (hm.trans (sameNames_length h7.1).symm)
          exact ⟨sameNames_trans h7.1 h8.1, exitOK_mono h7.1.2 h8.2⟩
        | brk => exact h7
        | cont => exact h7
        | err e => exact h7
    -- oneIteration
    · intro env st pipe body mark i e
      intro hm
      simp only [oneIteration]
      have hb1 := rangeBind1_P st st pipe i e
      rcases h1 : rangeBind1 st pipe i e with ⟨stA, fa1⟩
      rw [h1] at hb1
      cases fa1 with
      | some fa => exact ⟨hb1.1, hb1.2 fa rfl⟩
      | none =>
        try dsimp only
        have hb2 := rangeBind2_P stA st pipe i e
        rcases h2 : rangeBind2 stA pipe i e with ⟨stB, fa2⟩
        rw [h2] at hb2
        have hsB : sameNames st stB := sameNames_trans hb1.1 hb2.1
        cases fa2 with
        | some fa => exact ⟨hsB, hb2.2 fa rfl⟩
        | none =>
          try dsimp only
          have hW := ihWalk env stB e body
          rcases hw : walk f env stB e body with ⟨stC, ex0⟩
          rw [hw] at hW
          constructor
          · have hmB : mark = stB.vars.length := hm.trans (sameNames_length hsB).symm
            rw [hmB]
            exact sameNames_trans hsB (popTo_sameNames hW.1)
          · have hex := exitOK_mono hsB.2 hW.2
            cases ex0 <;> first | trivial | exact hex
    -- walkTemplate
    · intro env st dot name p
      simp only [walkTemplate]
      rcases hl : env.tmpls.lookup name with _ | root
      · exact ⟨presSt_refl _, trivial⟩
      · dsimp only
        by_cases hdep : (st.depth == env.maxDepth) = true
        · rw [if_pos hdep]
          exact ⟨presSt_refl _, trivial⟩
        · rw [if_neg hdep]
          have h8 := ihPOpt env st dot p
          rcases hpo : evalPipelineOpt f env st dot p with ⟨st1, r⟩
          rw [hpo] at h8
          cases r with
          | error e => exact ⟨h8.1, h8.2⟩
          | ok newDot =>
            try dsimp only
            have hW := ihWalk env
              { tname := name, vars := [("$", newDot)], depth := st1.depth + 1, wr := st1.wr }
              newDot root
            rcases hw : walk f env
                { tname := name, vars := [("$", newDot)], depth := st1.depth + 1, wr := st1.wr }
                newDot root with ⟨c1, ex⟩
            rw [hw] at hW
            constructor
            · exact presSt_trans h8.1 (presSt_wr hW.1.2.2)
            · exact exitOK_mono h8.1.2.2 hW.2
    -- evalPipelineOpt
    · intro env st dot p
      cases p with
      | none => exact ⟨presSt_refl _, trivial⟩
      | some pipe => exact ihPipe env st dot pipe
    -- evalPipeline
    · intro env st dot pipe
      simp only [evalPipeline]
      have h10 := ihCmds env st dot pipe.cmds GRes.empty
      rcases hc : evalCmds f env st dot pipe.cmds GRes.empty with ⟨st1, r⟩
      rw [hc] at h10
      cases r with
      | error e => exact h10
      | ok v =>
        try dsimp only
        have hA := applyDecls_presSt pipe.decl st1 pipe.isAssign v
        have hE := applyDecls_errOK pipe.decl st1 st pipe.isAssign v
        rcases ha : applyDecls st1 pipe.decl pipe.isAssign v with ⟨st2, fo⟩
        rw [ha] at hA hE
        cases fo with
        | none => exact ⟨presSt_trans h10.1 hA, trivial⟩
        | some fa => exact ⟨presSt_trans h10.1 hA, hE fa rfl⟩
    -- evalCmds
    · intro env st dot cs acc
      cases cs with
      | nil => exact ⟨presSt_refl _, trivial⟩
      | cons c rest =>
        simp only [evalCmds]
        have h11 := ihCmd env st dot c acc
        rcases hc : evalCommand f env st dot c acc with ⟨st1, r⟩
        rw [hc] at h11
        cases r with
        | error e => exact h11
        | ok v => exact EvalP_mono h11.1 (ihCmds env st1 dot rest v)
    -- evalCommand
    · intro env st dot c fin
      rcases c with ⟨head, args⟩
      cases head with
      | strT s =>
        simp only [evalCommand]
        try dsimp only
        by_cases hb : (strHasPrefix s btick && strHasSuffix s btick
            && decide (2 ≤ s.data.length)) = true
        · rw [if_pos hb]
          split
          · exact ⟨presSt_refl _, trivial⟩
          · split
            · exact ⟨presSt_refl _, trivial⟩
            · exact ⟨presSt_refl _, trivial⟩
        · rw [if_neg hb]
          rcases hn : notAFunctionChk st args fin with _ | fa
          · exact ⟨presSt_refl _, trivial⟩
          · exact ⟨presSt_refl _, notAFunctionChk_errOK st st args fin hn⟩
      | field ids =>
        simp only [evalCommand]
        try dsimp only
        rcases hf : evalFieldChain env st dot ids args fin with fa | v
        · exact ⟨presSt_refl _, evalFieldChain_errOK env st st dot ids args fin hf⟩
        · exact ⟨presSt_refl _, trivial⟩
      | chain t fs => exact ihChain env st dot t fs args fin
      | ident nm => exact ihFn env st dot nm args fin
      | pipeT p =>
        simp only [evalCommand]
        try dsimp only
        rcases hn : notAFunctionChk st args fin with _ | fa
        · exact ihPipe env st dot p
        · exact ⟨presSt_refl _, notAFunctionChk_errOK st st args fin hn⟩
      | varT ids =>
        simp only [evalCommand]
        try dsimp only
        rcases hv : evalVariableNode env st ids args fin with fa | v
        · exact ⟨presSt_refl _, evalVariableNode_errOK env st st ids args fin hv⟩
        · exact ⟨presSt_refl _, trivial⟩
      | boolT b =>
        simp only [evalCommand]
        try dsimp only
        rcases hn : notAFunctionChk st args fin with _ | fa
        · exact ⟨presSt_refl _, trivial⟩
        · exact ⟨presSt_refl _, notAFunctionChk_errOK st st args fin hn⟩
      | dot =>
        simp only [evalCommand]
        try dsimp only
        rcases hn : notAFunctionChk st args fin with _ | fa
        · exact ⟨presSt_refl _, trivial⟩
        · exact ⟨presSt_refl _, notAFunctionChk_errOK st st args fin hn⟩
      | nilT =>
        simp only [evalCommand]
        try dsimp only
        rcases hn : notAFunctionChk st args fin with _ | fa
        · exact ⟨presSt_refl _, trivial⟩
        · exact ⟨presSt_refl _, notAFunctionChk_errOK st st args fin hn⟩
      | numT n =>
        simp only [evalCommand]
        try dsimp only
        rcases hn : notAFunctionChk st args fin with _ | fa
        · exact ⟨presSt_refl _, trivial⟩
        · exact ⟨presSt_refl _, notAFunctionChk_errOK st st args fin hn⟩
    -- evalChainNode
    · intro env st dot t fs args fin
      simp only [evalChainNode]
      by_cases h1 : fs.isEmpty = true
      · rw [if_pos h1]
        exact ⟨presSt_refl _, trivial⟩
      · rw [if_neg h1]
        by_cases h2 : (match t with | Term.nilT => true | _ => false) = true
        · rw [if_pos h2]
          exact ⟨presSt_refl _, trivial⟩
        · rw [if_neg h2]
          try dsimp only
          have hA := ihArg env st dot t
          rcases ha : evalArg f env st dot t with ⟨st1, r⟩
          rw [ha] at hA
          cases r with
          | error e => exact hA
          | ok receiver =>
            try dsimp only
            rcases hf : evalFieldChain env st1 receiver fs args fin with fa | v
            · exact ⟨hA.1, evalFieldChain_errOK env st1 st receiver fs args fin hf⟩
            · exact ⟨hA.1, trivial⟩
    -- evalArg
    · intro env st dot t
      cases t with
      | dot => exact ⟨presSt_refl _, trivial⟩
      | nilT => exact ⟨presSt_refl _, trivial⟩
      | boolT b => exact ⟨presSt_refl _, trivial⟩
      | numT n => exact ⟨presSt_refl _, trivial⟩
      | strT s => exact ⟨presSt_refl _, trivial⟩
      | field ids =>
        simp only [evalArg]
        rcases hf : evalFieldChain env st dot ids [] GRes.empty with fa | v
        · exact ⟨presSt_refl _, evalFieldChain_errOK env st st dot ids [] GRes.empty hf⟩
        · exact ⟨presSt_refl _, trivial⟩
      | varT ids =>
        simp only [evalArg]
        rcases hv : evalVariableNode env st ids [] GRes.empty with fa | v
        · exact ⟨presSt_refl _, evalVariableNode_errOK env st st ids [] GRes.empty hv⟩
        · exact ⟨presSt_refl _, trivial⟩
      | pipeT p => exact ihPipe env st dot p
      | ident nm => exact ihFn env st dot nm [] GRes.empty
      | chain tt fs => exact ihChain env st dot tt fs [] GRes.empty
    -- evalArgs
    · intro env st dot ts
      cases ts with
      | nil => exact ⟨presSt_refl _, trivial⟩
      | cons a rest =>
        simp only [evalArgs]
        try dsimp only
        have hA := ihArg env st dot a
        rcases ha : evalArg f env st dot a with ⟨st1, r⟩
        rw [ha] at hA
        cases r with
        | error e => exact hA
        | ok v =>
          try dsimp only
          have hAs := ihArgs env st1 dot rest
          rcases hs : evalArgs f env st1 dot rest with ⟨st2, r2⟩
          rw [hs] at hAs
          cases r2 with
          | error e => exact EvalPL_mono hA.1 hAs
          | ok vs => exact ⟨presSt_trans hA.1 hAs.1, trivial⟩
    -- evalAndOr
    · intro ia env st dot ts last
      cases ts with
      | nil => exact ⟨presSt_refl _, trivial⟩
      | cons a rest =>
        simp only [evalAndOr]
        try dsimp only
        have hA := ihArg env st dot a
        rcases ha : evalArg f env st dot a with ⟨st1, r⟩
        rw [ha] at hA
        cases r with
        | error e => exact hA
        | ok v =>
          try dsimp only
          rcases ht : isGjsonTrue v with ⟨truth, okb⟩
          cases okb with
          | false => exact ⟨hA.1, trivial⟩
          | true =>
            cases ia with
            | true =>
              cases truth with
              | false => exact ⟨hA.1, trivial⟩
              | true => exact EvalP_mono hA.1 (ihAndOr true env st1 dot rest v)
            | false =>
              cases truth with
              | true => exact ⟨hA.1, trivial⟩
              | false => exact EvalP_mono hA.1 (ihAndOr false env st1 dot rest v)
    -- evalFunction
    · intro env st dot name args fin
      simp only [evalFunction]
      by_cases hg : (name == "gjson") = true
      · rw [if_pos hg]
        rcases args with _ | ⟨a, rest⟩
        · exact ⟨presSt_refl _, trivial⟩
        · rcases rest with _ | ⟨b, rest2⟩
          · try dsimp only
            have hA := ihArg env st dot a
            rcases ha : evalArg f env st dot a with ⟨st1, r⟩
            rw [ha] at hA
            cases r with
            | error e => exact hA
            | ok pathArg =>
              try dsimp only
              split
              · exact ⟨hA.1, trivial⟩
              · split
                · exact ⟨hA.1, trivial⟩
                · exact ⟨hA.1, trivial⟩
          · exact ⟨presSt_refl _, trivial⟩
      · rw [if_neg hg]
        by_cases hlen : (name == "len") = true
        · rw [if_pos hlen]
          rcases args with _ | ⟨a, rest⟩
          · exact ⟨presSt_refl _, trivial⟩
          · rcases rest with _ | ⟨b, rest2⟩
            · try dsimp only
              have hA := ihArg env st dot a
              rcases ha : evalArg f env st dot a with ⟨st1, r⟩
              rw [ha] at hA
              cases r with
              | error e => exact hA
              | ok arg =>
                try dsimp only
                split
                · exact ⟨hA.1, trivial⟩
                · split
                  · exact ⟨hA.1, trivial⟩
                  · split
                    · exact ⟨hA.1, trivial⟩
                    · exact ⟨hA.1, trivial⟩
            · exact ⟨presSt_refl _, trivial⟩
        · rw [if_neg hlen]
          by_cases hidx : (name == "index") = true
          · rw [if_pos hidx]
            rcases args with _ | ⟨a1, rest⟩
            · exact ⟨presSt_refl _, trivial⟩
            · rcases rest with _ | ⟨a2, rest2⟩
              · exact ⟨presSt_refl _, trivial⟩
              · try dsimp only
                have hA := ihArg env st dot a1
                rcases ha : evalArg f env st dot a1 with ⟨st1, r⟩
                rw [ha] at hA
                cases r with
                | error e => exact hA
                | ok container =>
                  try dsimp only
                  have hB := ihArg env st1 dot a2
                  rcases hb2 : evalArg f env st1 dot a2 with ⟨st2, r2⟩
                  rw [hb2] at hB
                  cases r2 with
                  | error e => exact EvalP_mono hA.1 hB
                  | ok key =>
                    try dsimp only
                    have hpres : presSt st st2 := presSt_trans hA.1 hB.1
                    split
                    · split
                      · exact ⟨hpres, trivial⟩
                      · split
                        · exact ⟨hpres, trivial⟩
                        · exact ⟨hpres, trivial⟩
                    · split
                      · exact ⟨hpres, trivial⟩
                      · exact ⟨hpres, trivial⟩
          · rw [if_neg hidx]
            by_cases hpr : (name == "print" || name == "println") = true
            · rw [if_pos hpr]
              have hAs := ihArgs env st dot args
              rcases has : evalArgs f env st dot args with ⟨st1, r⟩
              rw [has] at hAs
              cases r with
              | error e => exact hAs
              | ok vs => exact ⟨hAs.1, trivial⟩
            · rw [if_neg hpr]
              by_cases hao : (name == "and" || name == "or") = true
              · rw [if_pos hao]
                by_cases hae : args.isEmpty = true
                · rw [if_pos hae]
                  exact ⟨presSt_refl _, trivial⟩
                · rw [if_neg hae]
                  exact ihAndOr (name == "and") env st dot args GRes.empty
              · rw [if_neg hao]
                by_cases hnot : (name == "not") = true
                · rw [if_pos hnot]
                  rcases args with _ | ⟨a, rest⟩
                  · exact ⟨presSt_refl _, trivial⟩
                  · rcases rest with _ | ⟨b, rest2⟩
                    · try dsimp only
                      have hA := ihArg env st dot a
                      rcases ha : evalArg f env st dot a with ⟨st1, r⟩
                      rw [ha] at hA
                      cases r with
                      | error e => exact hA
                      | ok arg =>
                        try dsimp only
                        rcases ht : isGjsonTrue arg with ⟨truth, okb⟩
                        cases okb with
                        | false => exact ⟨hA.1, trivial⟩
                        | true => exact ⟨hA.1, trivial⟩
                    · exact ⟨presSt_refl _, trivial⟩
                · rw [if_neg hnot]
                  by_cases hcmp : (name == "eq" || name == "ne" || name == "lt"
                      || name == "le" || name == "gt" || name == "ge") = true
                  · rw [if_pos hcmp]
                    rcases args with _ | ⟨a1, rest⟩
                    · exact ⟨presSt_refl _, trivial⟩
                    · rcases rest with _ | ⟨a2, rest2⟩
                      · exact ⟨presSt_refl _, trivial⟩
                      · try dsimp only
                        have hA := ihArg env st dot a1
                        rcases ha : evalArg f env st dot a1 with ⟨st1, r⟩
                        rw [ha] at hA
                        cases r with
                        | error e => exact hA
                        | ok v1 =>
                          try dsimp only
                          have hB := ihArg env st1 dot a2
                          rcases hb2 : evalArg f env st1 dot a2 with ⟨st2, r2⟩
                          rw [hb2] at hB
                          cases r2 with
                          | error e => exact EvalP_mono hA.1 hB
                          | ok v2 => exact ⟨presSt_trans hA.1 hB.1, trivial⟩
                  · rw [if_neg hcmp]
                    by_cases hhtml : (name == "html") = true
                    · rw [if_pos hhtml]
                      rcases args with _ | ⟨a, rest⟩
                      · exact ⟨presSt_refl _, trivial⟩
                      · rcases rest with _ | ⟨b, rest2⟩
                        · try dsimp only
                          have hA := ihArg env st dot a
                          rcases ha : evalArg f env st dot a with ⟨st1, r⟩
                          rw [ha] at hA
                          cases r with
                          | error e => exact hA
                          | ok arg => exact ⟨hA.1, trivial⟩
                        · exact ⟨presSt_refl _, trivial⟩
                    · rw [if_neg hhtml]
                      by_cases hjs : (name == "js") = true
                      · rw [if_pos hjs]
                        rcases args with _ | ⟨a, rest⟩
                        · exact ⟨presSt_refl _, trivial⟩
                        · rcases rest with _ | ⟨b, rest2⟩
                          · try dsimp only
                            have hA := ihArg env st dot a
                            rcases ha : evalArg f env st dot a with ⟨st1, r⟩
                            rw [ha] at hA
                            cases r with
                            | error e => exact hA
                            | ok arg => exact ⟨hA.1, trivial⟩
                          · exact ⟨presSt_refl _, trivial⟩
                      · rw [if_neg hjs]
                        by_cases hurl : (name == "urlquery") = true
                        · rw [if_pos hurl]
                          rcases args with _ | ⟨a, rest⟩
                          · exact ⟨presSt_refl _, trivial⟩
                          · rcases rest with _ | ⟨b, rest2⟩
                            · try dsimp only
                              have hA := ihArg env st dot a
                              rcases ha : evalArg f env st dot a with ⟨st1, r⟩
                              rw [ha] at hA
                              cases r with
                              | error e => exact hA
                              | ok arg => exact ⟨hA.1, trivial⟩
                            · exact ⟨presSt_refl _, trivial⟩
                        · rw [if_neg hurl]
                          by_cases hpf : (name == "printf" || name == "sprintf") = true
                          · rw [if_pos hpf]
                            rcases args with _ | ⟨fmt, rest⟩
                            · exact ⟨presSt_refl _, trivial⟩
                            · try dsimp only
                              have hA := ihArg env st dot fmt
                              rcases ha : evalArg f env st dot fmt with ⟨st1, r⟩
                              rw [ha] at hA
                              cases r with
                              | error e => exact hA
                              | ok formatArg =>
                                try dsimp only
                                split
                                · exact ⟨hA.1, trivial⟩
                                · have hAs := ihArgs env st1 dot rest
                                  rcases has : evalArgs f env st1 dot rest with ⟨st2, r2⟩
                                  rw [has] at hAs
                                  cases r2 with
                                  | error e => exact EvalP_mono hA.1 ⟨hAs.1, hAs.2⟩
                                  | ok goArgs => exact ⟨presSt_trans hA.1 hAs.1, trivial⟩
                          · rw [if_neg hpf]
                            rcases hfn : env.funcs name with _ | fn
                            · exact ⟨presSt_refl _, trivial⟩
                            · have hAs := ihArgs env st dot args
                              rcases has : evalArgs f env st dot args with ⟨st1, r⟩
                              rw [has] at hAs
                              cases r with
                              | error e => exact ⟨hAs.1, hAs.2⟩
                              | ok vs =>
                                try dsimp only
                                rcases hc : fn vs with msg | rr
                                · exact ⟨hAs.1, trivial⟩
                                · exact ⟨hAs.1, trivial⟩

/-! ## Concrete fixtures -/

def idEsc : String → String := fun s => s

def noFuncs : String → Option (List GRes → Except String GRes) := fun _ => none

def fmt0 : String → List GRes → String := fun s _ => s

/-- An environment with the given registry and depth ceiling, the
default missing-key policy, no registered functions, and trivial
external escapers/formatter. -/
def mkEnv (tmpls : List (String × Node)) (maxDepth : Nat) : Env :=
  { tmpls := tmpls, missingKey := .invalid, maxDepth := maxDepth,
    funcs := noFuncs, htmlEsc := idEsc, jsEsc := idEsc, urlEsc := idEsc, fmtS := fmt0 }

def okWriter : Writer := { budget := none, errMsg := "sink failure", written := "" }

def failWriter (msg : String) : Writer := { budget := some 0, errMsg := msg, written := "" }

/-- The parsed document `\x7b"Number":42\x7d`. -/
def doc42 : GRes := .mk .JSON "\x7b\"Number\":42\x7d" "" 0 [] [("Number", mkNum 42)]

def emptyStrVal : GRes := mkStr ""

/-- The parsed value `[]`. -/
def emptyArrVal : GRes := .mk .JSON "[]" "" 0 [] []

/-- The parsed document `\x7b"Bool":true,"Empty":\x7b"String":""\x7d\x7d`. -/
def docAnd : GRes :=
  .mk .JSON "\x7b\"Bool\":true,\"Empty\":\x7b\"String\":\"\"\x7d\x7d" "" 0 []
    [("Bool", mkBool true),
     ("Empty", .mk .JSON "\x7b\"String\":\"\"\x7d" "" 0 [] [("String", emptyStrVal)])]

/-- The parsed document `\x7b"Empty":\x7b"Array":[]\x7d\x7d`. -/
def docOr : GRes :=
  .mk .JSON "\x7b\"Empty\":\x7b\"Array\":[]\x7d\x7d" "" 0 []
    [("Empty", .mk .JSON "\x7b\"Array\":[]\x7d" "" 0 [] [("Array", emptyArrVal)])]

/-- A main-template execution state over `doc42`. -/
def st42 : St := { tname := "main", vars := [("$", doc42)], depth := 0, wr := okWriter }

/-- The pipeline `.` (one dot command, no declarations). -/
def dotPipe : Pipe := .mk [] false [.mk .dot []]

/-- A pipeline of one field-chain command, no declarations. -/
def fieldPipe (ids : List String) : Pipe := .mk [] false [.mk (.field ids) []]

/-- `$x := <field>`: one field-chain command declaring `x`. -/
def declPipe (x : String) (ids : List String) : Pipe := .mk [x] false [.mk (.field ids) []]

/-- The pipeline `$x` (variable reference, no declarations). -/
def varPipe (x : String) : Pipe := .mk [] false [.mk (.varT [x]) []]

/-! ## Claim theorems -/

/-- C2: the truthiness classification used by if, with, and, or and not
maps every value as the spec's table states: Null is false; False is
false; True is true; a Number is true iff nonzero; a String is true iff
nonempty; an Array or Object is true iff its raw text is none of `""`,
`"[]"`, `"\x7b\x7d"` — a textual check on canonical form.  The code's
`isGjsonTrue` agrees with the spec-side table `truthSpec` on every value
the table covers, always reporting a meaningful truth value. -/
theorem c2_truthiness (v : GRes) (b : Bool) (h : truthSpec v = some b) :
    isGjsonTrue v = (b, true) := by
  rcases v with ⟨t, raw, str, num, arr, obj⟩
  cases t with
  | Null =>
    simp only [truthSpec, GRes.type] at h
    cases h
    by_cases he : (GRes.mk GType.Null raw str num arr obj).existsB = true
    · simp [isGjsonTrue, he, GRes.type]
    · simp only [Bool.not_eq_true] at he
      simp [isGjsonTrue, he]
  | False =>
    simp only [truthSpec, GRes.type] at h
    cases h
    simp [isGjsonTrue, GRes.existsB, GRes.type]
  | True =>
    simp only [truthSpec, GRes.type] at h
    cases h
    simp [isGjsonTrue, GRes.existsB, GRes.type]
  | Number =>
    simp only [truthSpec, GRes.type] at h
    cases h
    simp [isGjsonTrue, GRes.existsB, GRes.type, GRes.num]
  | String =>
    simp only [truthSpec, GRes.type] at h
    cases h
    simp [isGjsonTrue, GRes.existsB, GRes.type, GRes.str]
  | JSON =>
    simp only [truthSpec, GRes.type] at h
    by_cases hc : ((GRes.mk GType.JSON raw str num arr obj).isArray
        || (GRes.mk GType.JSON raw str num arr obj).isObject) = true
    · rw [if_pos hc] at h
      cases h
      simp only [isGjsonTrue, GRes.existsB, GRes.type, GRes.raw]
      rw [if_neg (by simp)]
      rw [if_pos hc]
      simp [Bool.not_or, bne]
    · rw [if_neg hc] at h
      cases h

theorem c2_truthiness_witness : isGjsonTrue (mkNum 7) = (true, true) :=
  c2_truthiness (mkNum 7) true rfl

/-- C3: with one numeric and one string operand, `eq` attempts to parse
the string as a number and compares numerically (a parse failure yields
not-equal), while `ne` never performs this coercion and always compares
the operands' raw canonical text; consequently, over
`\x7b"Number":42\x7d`, both `eq .Number "42"` and `ne .Number "42"`
evaluate to true. -/
theorem c3_eq_ne_asymmetry :
    (∀ a b : GRes, a.type = GType.Number → b.type = GType.String →
      compareOp "eq" a b =
        (match parseFloatModel b.string with
         | some n => a.num == n
         | none => false) ∧
      compareOp "ne" a b = (a.raw != b.raw)) ∧
    evalFunction 5 (mkEnv [] 5) st42 doc42 "eq"
        [Term.field ["Number"], Term.strT "42"] GRes.empty
      = (st42, .ok (mkBool true)) ∧
    evalFunction 5 (mkEnv [] 5) st42 doc42 "ne"
        [Term.field ["Number"], Term.strT "42"] GRes.empty
      = (st42, .ok (mkBool true)) := by
  refine ⟨?_, rfl, rfl⟩
  intro a b ha hb
  constructor
  · simp only [compareOp, ha, hb]
    rfl
  · rfl

theorem c3_eq_ne_asymmetry_witness :
    compareOp "eq" (mkNum 42) (mkStr "42") =
        (match parseFloatModel (mkStr "42").string with
         | some n => (mkNum 42).num == n
         | none => false) ∧
      compareOp "ne" (mkNum 42) (mkStr "42") = ((mkNum 42).raw != (mkStr "42").raw) :=
  c3_eq_ne_asymmetry.1 (mkNum 42) (mkStr "42") rfl rfl

/-- C9: `execute` rejects any input whose parsed form is not a JSON
document with a top-level object or array (a bare scalar, or whatever a
malformed document parses to) with a data-format fault, before any
template node is evaluated — for every fuel, environment, root and
writer the result is the data-format error and the output sink is
completely untouched. -/
theorem c9_data_format (fuel : Nat) (env : Env) (root : Option Node) (tname : String)
    (w : Writer) (g : GRes) (h1 : g.isObject = false) (h2 : g.isArray = false) :
    executeT fuel env root tname w g = (.errData tname, w) := by
  unfold executeT
  rw [h1, h2]
  simp

theorem c9_data_format_witness :
    executeT 9 (mkEnv [] 5) (some (Node.text "X")) "main" okWriter (mkNum 5)
      = (.errData "main", okWriter) :=
  c9_data_format 9 (mkEnv [] 5) (some (Node.text "X")) "main" okWriter (mkNum 5) rfl rfl

/-- C5: an Action node prints its pipeline's result iff the pipeline
declares no identifiers (with identifiers declared, nothing is printed
and the value is only bound), and what is printed follows the
printValue rule: `printString` agrees with the spec-side `printSpec`
(absent value → empty string, String → unquoted text, Array/Object →
raw canonical JSON text, everything else → canonical literal text), and
`printValue` appends exactly that text to the sink. -/
theorem c5_action_print :
    (∀ v, printString v = printSpec v) ∧
    (∀ f env st dot pipe st1 v, evalPipeline f env st dot pipe = (st1, Except.ok v) →
      (pipe.decl = [] → walk (f + 1) env st dot (Node.action pipe) = printValue st1 v) ∧
      (pipe.decl ≠ [] → walk (f + 1) env st dot (Node.action pipe) = (st1, Exit.normal))) ∧
    (∀ st v, st.wr.budget = none →
      printValue st v =
        ({ st with wr := { st.wr with written := st.wr.written ++ printString v } },
          Exit.normal)) := by
  refine ⟨?_, ?_, ?_⟩
  · intro v
    rcases v with ⟨t, raw, str, num, arr, obj⟩
    by_cases he : (GRes.mk t raw str num arr obj).existsB = true
    · cases t <;>
        simp [printString, printSpec, he, GRes.type, GRes.isArray, GRes.isObject,
          GRes.string, GRes.raw, GRes.str]
    · simp only [Bool.not_eq_true] at he
      simp [printString, printSpec, he]
  · intro f env st dot pipe st1 v h
    constructor
    · intro hd
      simp only [walk, h]
      simp [hd]
    · intro hd
      simp only [walk, h]
      have hne : pipe.decl.isEmpty = false := by
        cases hdl : pipe.decl with
        | nil => exact absurd hdl hd
        | cons a l => rfl
      simp [hne]
  · intro st v hb
    simp only [printValue, Writer.write, hb]

theorem c5_action_print_witness :
    walk 4 (mkEnv [] 5) st42 doc42 (Node.action (fieldPipe ["Number"]))
      = printValue st42 (mkNum 42) :=
  (c5_action_print.2.1 3 (mkEnv [] 5) st42 doc42 (fieldPipe ["Number"]) st42 (mkNum 42)
    rfl).1 rfl

/-- The specification-side cons step for and/or: when the head value is
not decisive, the chosen value over `v :: vs` with fallback `last` is
the chosen value over `vs` with fallback `v`. -/
theorem getLastD_irrel {α : Type} :
    ∀ (w : α) (ws : List α) (x y : α),
      ((w :: ws).getLast?).getD x = ((w :: ws).getLast?).getD y := by
  intro w ws
  induction ws generalizing w with
  | nil => intro x y; rfl
  | cons w2 ws2 ih =>
    intro x y
    simp only [List.getLast?_cons_cons]
    exact ih w2 x y

theorem specAndOr_cons_neg (ia : Bool) (v : GRes) (vs : List GRes) (last : GRes)
    (h : ((isGjsonTrue v).1 == !ia) = false) :
    (specAndOr ia (v :: vs)).getD last = (specAndOr ia vs).getD v := by
  unfold specAndOr
  rw [List.find?_cons_of_neg _ (by simp [h])]
  rcases hf : vs.find? (fun u => (isGjsonTrue u).1 == !ia) with _ | u
  · simp only [hf]
    cases vs with
    | nil => rfl
    | cons w ws =>
      simp only [List.getLast?_cons_cons]
      exact getLastD_irrel w ws last v
  · simp [hf]

/-- The general and/or loop behaviour over purely-evaluating argument
lists: the loop returns the value selected by the spec-side rule. -/
theorem evalAndOr_pure (ia : Bool) (env : Env) (dot : GRes) :
    ∀ (args : List Term) (vs : List GRes) (st : St) (last : GRes) (f : Nat),
      PureArgs env dot args vs →
      (∀ v ∈ vs, (isGjsonTrue v).2 = true) →
      args.length < f →
      evalAndOr f ia env st dot args last = (st, .ok ((specAndOr ia vs).getD last)) := by
  intro args
  induction args with
  | nil =>
    intro vs st last f hp hok hf
    cases vs with
    | nil =>
      obtain ⟨g, rfl⟩ : ∃ g, f = g + 1 := ⟨f - 1, by omega⟩
      simp [evalAndOr, specAndOr]
    | cons v vs2 => exact absurd hp (by simp [PureArgs])
  | cons a rest ih =>
    intro vs st last f hp hok hf
    cases vs with
    | nil => exact absurd hp (by simp [PureArgs])
    | cons v vs2 =>
      obtain ⟨h1, hrest⟩ := hp
      obtain ⟨g, rfl⟩ : ∃ g, f = g + 1 := ⟨f - 1, by omega⟩
      obtain ⟨g2, rfl⟩ : ∃ g2, g = g2 + 1 := by
        refine ⟨g - 1, ?_⟩
        simp only [List.length_cons] at hf
        omega
      simp only [evalAndOr]
      rw [h1 st g2]
      try dsimp only
      have hv : (isGjsonTrue v).2 = true := hok v (by simp)
      rcases ht : isGjsonTrue v with ⟨truth, okb⟩
      rw [ht] at hv
      cases hv
      try dsimp only
      have hlen : rest.length < g2 + 1 := by
        simp only [List.length_cons] at hf
        omega
      cases ia with
      | true =>
        cases truth with
        | false =>
          unfold specAndOr
          rw [List.find?_cons_of_pos _ (by rw [ht]; rfl)]
          rfl
        | true =>
          rw [ih vs2 st v (g2 + 1) hrest
            (fun u hu => hok u (by simp [hu])) hlen]
          rw [specAndOr_cons_neg true v vs2 last (by rw [ht]; rfl)]
          rfl
      | false =>
        cases truth with
        | true =>
          unfold specAndOr
          rw [List.find?_cons_of_pos _ (by rw [ht]; rfl)]
          rfl
        | false =>
          rw [ih vs2 st v (g2 + 1) hrest
            (fun u hu => hok u (by simp [hu])) hlen]
          rw [specAndOr_cons_neg false v vs2 last (by rw [ht]; rfl)]
          rfl

/-- C4: `and` and `or` evaluate their arguments left to right and return
an argument's value, not a boolean: `and` returns the value of the first
falsy argument, or the last argument's value if all are truthy; `or`
returns the value of the first truthy argument, or the last argument's
value if all are falsy.  In particular, `and .Bool .Empty.String` over
`\x7b"Bool":true,"Empty":\x7b"String":""\x7d\x7d` yields the empty
string value itself, and `or .Empty.String .Empty.Array` over
`\x7b"Empty":\x7b"Array":[]\x7d\x7d` yields the `[]` value. -/
theorem c4_and_or :
    (∀ (ia : Bool) (env : Env) (dot : GRes) (args : List Term) (vs : List GRes)
        (st : St) (last : GRes) (f : Nat),
      PureArgs env dot args vs →
      (∀ v ∈ vs, (isGjsonTrue v).2 = true) →
      args.length < f →
      evalAndOr f ia env st dot args last = (st, .ok ((specAndOr ia vs).getD last))) ∧
    evalFunction 6 (mkEnv [] 5) st42 docAnd "and"
        [Term.field ["Bool"], Term.field ["Empty", "String"]] GRes.empty
      = (st42, .ok emptyStrVal) ∧
    evalFunction 6 (mkEnv [] 5) st42 docOr "or"
        [Term.field ["Empty", "String"], Term.field ["Empty", "Array"]] GRes.empty
      = (st42, .ok emptyArrVal) :=
  ⟨fun ia env dot args vs st last f => evalAndOr_pure ia env dot args vs st last f,
    rfl, rfl⟩

theorem c4_and_or_witness :
    evalAndOr 2 true (mkEnv [] 5) st42 doc42 [Term.boolT true] GRes.empty
      = (st42, .ok ((specAndOr true [mkBool true]).getD GRes.empty)) :=
  c4_and_or.1 true (mkEnv [] 5) doc42 [Term.boolT true] [mkBool true] st42 GRes.empty 2
    ⟨fun st g => rfl, trivial⟩
    (by
      intro v hv
      rw [List.mem_singleton] at hv
      subst hv
      rfl)
    (by decide)

/-- A registry holding one trivial template `t`. -/
def tmplEnv : Env := mkEnv [("t", Node.text "")] 5

/-- The call pipeline `$x := .` (declares `x`, one dot command). -/
def declDotPipe : Pipe := Pipe.mk ["x"] false [Cmd.mk Term.dot []]

/-- C1 counterexample: the claim includes template-call among the block
constructs whose scope stack is restored to the entry length on exit,
but `walkTemplate` takes no mark and performs no pop: after a
template-call whose pipeline declares `$x`, the caller's stack is
longer than on entry and `x` still resolves. -/
theorem c1_counterexample :
    (walkTemplate 10 tmplEnv st42 doc42 "t" (some declDotPipe)).1.vars.length ≠
        st42.vars.length ∧
      (varLookup (walkTemplate 10 tmplEnv st42 doc42 "t" (some declDotPipe)).1.vars
        "x").isSome = true := by
  refine ⟨?_, ?_⟩ <;> decide

/-- C1 (amended): for if, with and range blocks the scope stack is
restored to exactly the entry binding names on every exit path (normal
completion, break or continue signal, fault, or fuel exhaustion of the
model), so a variable not bound on entry is unresolvable immediately
after the block exits.  A template-call leaves the caller's stack
exactly as evaluating the call pipeline left it: the callee runs on a
fresh stack, so no callee-internal declaration reaches the caller, but
a variable declared by the call's own pipeline persists. -/
theorem c1_scope_restoration :
    (∀ f w env st dot pipe l el,
      (walkIfOrWith f w env st dot pipe l el).1.vars.map Prod.fst
        = st.vars.map Prod.fst) ∧
    (∀ f env st dot pipe l el,
      (walkRange f env st dot pipe l el).1.vars.map Prod.fst
        = st.vars.map Prod.fst) ∧
    (∀ f w env st dot pipe l el name, name ∉ st.vars.map Prod.fst →
      varLookup (walkIfOrWith f w env st dot pipe l el).1.vars name = none) ∧
    (∀ f env st dot pipe l el name, name ∉ st.vars.map Prod.fst →
      varLookup (walkRange f env st dot pipe l el).1.vars name = none) ∧
    (∀ f env st dot nm p root, env.tmpls.lookup nm = some root →
      (st.depth == env.maxDepth) = false →
      (walkTemplate (f + 1) env st dot nm p).1.vars = (evalPipelineOpt f env st dot p).1.vars) := by
  have hIfW : ∀ f w env st dot pipe l el,
      (walkIfOrWith f w env st dot pipe l el).1.vars.map Prod.fst
        = st.vars.map Prod.fst := by
    intro f w env st dot pipe l el
    cases f with
    | zero => rfl
    | succ f =>
      obtain ⟨_, _, hIfWI, _⟩ := pres_all f
      simp only [walkIfOrWith]
      have hI := hIfWI w env st dot pipe l el
      rcases hR : walkIfOrWithInner f w env st dot pipe l el with ⟨stR, exR⟩
      rw [hR] at hI
      exact (popTo_sameNames hI.1).1
  have hRng : ∀ f env st dot pipe l el,
      (walkRange f env st dot pipe l el).1.vars.map Prod.fst
        = st.vars.map Prod.fst := by
    intro f env st dot pipe l el
    cases f with
    | zero => rfl
    | succ f =>
      obtain ⟨_, _, _, _, hRngI, _⟩ := pres_all f
      simp only [walkRange]
      have hI := hRngI env st dot pipe l el
      rcases hR : walkRangeInner f env st dot pipe l el with ⟨stR, exR⟩
      rw [hR] at hI
      cases exR <;> exact (popTo_sameNames hI.1).1
  refine ⟨hIfW, hRng, ?_, ?_, ?_⟩
  · intro f w env st dot pipe l el name hn
    apply varLookup_eq_none
    rw [hIfW f w env st dot pipe l el]
    exact hn
  · intro f env st dot pipe l el name hn
    apply varLookup_eq_none
    rw [hRng f env st dot pipe l el]
    exact hn
  · intro f env st dot nm p root hlook hdep
    simp only [walkTemplate]
    rw [hlook, hdep]
    try dsimp only
    rcases hpo : evalPipelineOpt f env st dot p with ⟨st1, r⟩
    cases r with
    | error e => rfl
    | ok newDot => rfl

theorem c1_scope_restoration_witness :
    varLookup (walkIfOrWith 5 false (mkEnv [] 5) st42 doc42 dotPipe (Node.text "B")
      none).1.vars "zz" = none :=
  c1_scope_restoration.2.2.1 5 false (mkEnv [] 5) st42 doc42 dotPipe (Node.text "B")
    none "zz" (by decide)

/-- The one-template self-recursive registry used by the
depth-termination theorem. -/
def recEnv (m : Nat) : Env := mkEnv [("T", Node.tmplN "T" none)] m

/-- C7: a template-call first looks up the named template (failing with
an undefined-template fault), fails with a depth-exceeded fault when
the current depth has reached the configured ceiling, and otherwise
executes the target's root in a child state at depth+1 whose stack
holds exactly the single binding `$` bound to the call pipeline's value
— no caller bindings are inherited.  Consequently the self-recursive
template set terminates with a reported depth-exceeded fault for every
ceiling and every sufficiently large fuel (never by resource
exhaustion of the model). -/
theorem c7_template_depth :
    (∀ f env st dot nm p, env.tmpls.lookup nm = none →
      walkTemplate (f + 1) env st dot nm p
        = (st, .err (.f (.execErr st.tname (.undefTemplate nm))))) ∧
    (∀ f env st dot nm p root, env.tmpls.lookup nm = some root →
      st.depth = env.maxDepth →
      walkTemplate (f + 1) env st dot nm p
        = (st, .err (.f (.execErr st.tname .depthExceeded)))) ∧
    (∀ f env st dot nm p root st1 v, env.tmpls.lookup nm = some root →
      (st.depth == env.maxDepth) = false →
      evalPipelineOpt f env st dot p = (st1, .ok v) →
      walkTemplate (f + 1) env st dot nm p
        = (let r := walk f env
            { tname := nm, vars := [("$", v)], depth := st1.depth + 1, wr := st1.wr } v root
           ({ st1 with wr := r.1.wr }, r.2))) ∧
    (∀ (m k : Nat) (st : St) (dot : GRes) (f : Nat),
      st.depth + k = m → 2 * k + 2 ≤ f →
      (walk f (recEnv m) st dot (Node.tmplN "T" none)).2
        = .err (.f (.execErr (if k = 0 then st.tname else "T") .depthExceeded))) := by
  refine ⟨?_, ?_, ?_, ?_⟩
  · intro f env st dot nm p hlook
    simp only [walkTemplate, hlook]
  · intro f env st dot nm p root hlook hdep
    simp only [walkTemplate, hlook]
    rw [if_pos (by rw [hdep]; exact beq_self_eq_true _)]
  · intro f env st dot nm p root st1 v hlook hdep hpo
    simp only [walkTemplate, hlook]
    rw [hdep]
    try dsimp only
    rw [hpo]
    rfl
  · intro m
    intro k
    induction k with
    | zero =>
      intro st dot f hdep hf
      obtain ⟨a, rfl⟩ : ∃ a, f = a + 1 := ⟨f - 1, by omega⟩
      obtain ⟨b, rfl⟩ : ∃ b, a = b + 1 := ⟨a - 1, by omega⟩
      simp only [walk, walkTemplate]
      rw [show (recEnv m).tmpls.lookup "T" = some (Node.tmplN "T" none) from rfl]
      try dsimp only
      rw [if_pos (show (st.depth == (recEnv m).maxDepth) = true by
        simp [recEnv, mkEnv]
        omega)]
      rfl
    | succ k ih =>
      intro st dot f hdep hf
      obtain ⟨a, rfl⟩ : ∃ a, f = a + 1 := ⟨f - 1, by omega⟩
      obtain ⟨b, rfl⟩ : ∃ b, a = b + 1 := ⟨a - 1, by omega⟩
      obtain ⟨c, rfl⟩ : ∃ c, b = c + 1 := ⟨b - 1, by omega⟩
      simp only [walk, walkTemplate, evalPipelineOpt]
      rw [show (recEnv m).tmpls.lookup "T" = some (Node.tmplN "T" none) from rfl]
      try dsimp only
      rw [if_neg (show ¬(st.depth == (recEnv m).maxDepth) = true by
        simp [recEnv, mkEnv]
        omega)]
      try dsimp only
      rw [if_neg (Nat.succ_ne_zero k)]
      have hchild := ih ⟨"T", [("$", GRes.empty)], st.depth + 1, st.wr⟩ GRes.empty (c + 1)
        (by show st.depth + 1 + k = m; omega) (by omega)
      have hT : (if k = 0 then (⟨"T", [("$", GRes.empty)], st.depth + 1, st.wr⟩ : St).tname
          else "T") = "T" := by
        cases k <;> rfl
      rw [hT] at hchild
      exact hchild

theorem c7_template_depth_witness :
    (walk 6 (recEnv 2) st42 doc42 (Node.tmplN "T" none)).2
      = .err (.f (.execErr (if 2 = 0 then st42.tname else "T") .depthExceeded)) :=
  c7_template_depth.2.2.2 2 2 st42 doc42 6 (by decide) (by decide)

/-- C10: a variable declared by the pipeline of a template-call node
remains bound in the caller's stack after the call returns —
`evalPipeline` with a declaring (non-assign) pipe pushes the binding
onto the caller's stack; `walkTemplate` returns the caller state with
exactly the pipeline-evaluation stack, taking no mark and popping
nothing; end to end, a sibling action after a declaring template-call
still resolves the variable and prints it. -/
theorem c10_template_decl_persists :
    (∀ f env st dot x cmds st1 v,
      evalCmds f env st dot cmds GRes.empty = (st1, .ok v) →
      evalPipeline (f + 1) env st dot (Pipe.mk [x] false cmds)
        = (st1.push x v, .ok v)) ∧
    (∀ f env st dot nm p root st1 v, env.tmpls.lookup nm = some root →
      (st.depth == env.maxDepth) = false →
      evalPipelineOpt f env st dot p = (st1, .ok v) →
      (walkTemplate (f + 1) env st dot nm p).1.vars = st1.vars) ∧
    (executeT 12 (mkEnv [("t", Node.text "T!")] 5)
        (some (Node.listN [Node.tmplN "t" (some (declPipe "x" ["Number"])),
                           Node.action (varPipe "x")]))
        "main" okWriter doc42
      = (.ok, { okWriter with written := "T!42" })) := by
  refine ⟨?_, ?_, ?_⟩
  · intro f env st dot x cmds st1 v h
    simp only [evalPipeline]
    dsimp only [Pipe.cmds, Pipe.decl, Pipe.isAssign]
    rw [h]
    rfl
  · intro f env st dot nm p root st1 v hlook hdep hpo
    simp only [walkTemplate, hlook]
    rw [hdep]
    try dsimp only
    rw [hpo]
    rfl
  · rfl

theorem c10_template_decl_persists_witness :
    (walkTemplate 6 tmplEnv st42 doc42 "t" (some (declPipe "x" ["Number"]))).1.vars
      = (st42.push "x" (mkNum 42)).vars :=
  c10_template_decl_persists.2.1 5 tmplEnv st42 doc42 "t"
    (some (declPipe "x" ["Number"])) (Node.text "")
    (st42.push "x" (mkNum 42)) (mkNum 42) rfl rfl rfl

/-- C8: an error returned by the output sink always surfaces to the
caller of `execute` as the sink's original error text (the wrapper
stripped), for every fuel, environment, template and input, while a
template-logic fault surfaces as an exec fault carrying the template's
name; concretely, a failing sink yields exactly its own message and an
undefined variable yields the named exec fault. -/
theorem c8_error_classes :
    (∀ fuel env root tname w g o w2,
      executeT fuel env root tname w g = (.errWrite o, w2) → o = w.errMsg) ∧
    (executeT 5 (mkEnv [] 5) (some (Node.text "X")) "main" (failWriter "disk full") doc42
      = (.errWrite "disk full", failWriter "disk full")) ∧
    (executeT 5 (mkEnv [] 5) (some (Node.action (varPipe "nope"))) "main" okWriter doc42
      = (.errExec "main" (.undefVar "nope"), okWriter)) := by
  refine ⟨?_, rfl, rfl⟩
  intro fuel env root tname w g o w2 h
  simp only [executeT] at h
  by_cases hd : (!g.isObject && !g.isArray) = true
  · rw [if_pos hd] at h
    injection h with hA hB
    exact TopResult.noConfusion hA
  · rw [if_neg hd] at h
    cases root with
    | none =>
      try dsimp only at h
      injection h with hA hB
      exact TopResult.noConfusion hA
    | some r =>
      try dsimp only at h
      have hp := (pres_all fuel).1 env ⟨tname, [("$", g)], 0, w⟩ g r
      rcases hw : walk fuel env ⟨tname, [("$", g)], 0, w⟩ g r with ⟨st1, ex⟩
      rw [hw] at h hp
      cases ex with
      | normal =>
        try dsimp only at h
        injection h with hA hB
        exact TopResult.noConfusion hA
      | brk =>
        try dsimp only at h
        injection h with hA hB
        exact TopResult.noConfusion hA
      | cont =>
        try dsimp only at h
        injection h with hA hB
        exact TopResult.noConfusion hA
      | err e =>
        cases e with
        | fuelOut =>
          try dsimp only at h
          injection h with hA hB
          exact TopResult.noConfusion hA
        | f fa =>
          cases fa with
          | execErr n k =>
            try dsimp only at h
            injection h with hA hB
            exact TopResult.noConfusion hA
          | writeErr oo =>
            try dsimp only at h
            injection h with hA hB
            injection hA with hO
            subst hO
            exact hp.2

theorem c8_error_classes_witness :
    "disk full" = (failWriter "disk full").errMsg :=
  c8_error_classes.1 5 (mkEnv [] 5) (some (Node.text "X")) "main"
    (failWriter "disk full") doc42 "disk full" (failWriter "disk full") rfl

/-- Loop body that writes `A`, raises a Continue signal, then would
write `X` if the signal did not end the iteration. -/
def contBody : Node := Node.listN [Node.text "A", Node.continueN, Node.text "X"]

/-- Loop body that writes `A`, raises a Break signal, then would write
`X` if the signal did not end the loop. -/
def brkBody : Node := Node.listN [Node.text "A", Node.breakN, Node.text "X"]

/-- Loop body that faults on an undefined variable. -/
def faultBody : Node := Node.action (varPipe "nope")

/-- The two-element array value `[1,2]`. -/
def arr12 : GRes := .mk .JSON "[1,2]" "" 0 [mkNum 1, mkNum 2] []

/-- Entry state whose document is the array `[1,2]` with a healthy
sink. -/
def stArr : St := { tname := "main", vars := [("$", arr12)], depth := 0, wr := okWriter }

/-- The same state with a sink that fails every write with `disk
full`. -/
def stArrF : St := { stArr with wr := failWriter "disk full" }

/-- An always-true pipeline (the literal `true`). -/
def truthyPipe : Pipe := .mk [] false [.mk (.boolT true) []]

/-- C6: over the two-element array, a Continue signal raised in the
body ends only its iteration, so both iterations write their prefix
and the loop completes normally; a Break signal ends the whole loop
after the first prefix, skipping the else-body; an execution fault and
a write fault each propagate out of the loop unabsorbed with the loop's
scope restored; and an if block does not intercept a Break signal. -/
theorem c6_loop_signals :
    (walkRange 12 (mkEnv [] 5) stArr arr12 dotPipe contBody (some (Node.text "E"))
      = ({ stArr with wr := { okWriter with written := "AA" } }, .normal)) ∧
    (walkRange 12 (mkEnv [] 5) stArr arr12 dotPipe brkBody (some (Node.text "E"))
      = ({ stArr with wr := { okWriter with written := "A" } }, .normal)) ∧
    (walkRange 12 (mkEnv [] 5) stArr arr12 dotPipe faultBody (some (Node.text "E"))
      = (stArr, .err (.f (.execErr "main" (.undefVar "nope"))))) ∧
    (walkRange 12 (mkEnv [] 5) stArrF arr12 dotPipe (Node.text "A") none
      = (stArrF, .err (.f (.writeErr "disk full")))) ∧
    (walk 12 (mkEnv [] 5) st42 doc42 (Node.ifN truthyPipe Node.breakN none)
      = (st42, .brk)) := by
  refine ⟨?_, ?_, ?_, ?_, ?_⟩ <;> rfl

end GJT
